import Mathlib

/-!
# Verification of the pinq pairing & transfer coordination layer

Shallow embedding of the pinq repository (Pair-In Quick: a WebRTC text/file
transfer tool with a socket.io room broker).  The embedding follows the
current revision of each source file:

* the room broker (`handleJoin` / `handleSignal` / `handleDisconnect` /
  `scheduleRoomExpiry`), the role-aware revision whose `JoinRoomPayload`
  carries a `role` field;
* the chunk codec (`chunkText` / `chunkFile`, byte-based revision) and the
  control markers with their legacy spellings;
* the metadata frame (`JSON.stringify` at send, `JSON.parse` at receive),
  modelled at the level of JSON values;
* the PWA `SignalingClient` (handler registry and dispatch) and the
  `App.svelte` send guards.

Machine integers do not overflow in any of the embedded code paths (sizes
and timestamps are plain JS numbers used as integers), so they are modelled
as `Nat`.
-/

namespace Pinq

/-! ## JavaScript string helpers

`String.prototype.trim` and `String.prototype.toUpperCase`, restricted to
the ASCII range used by pairing codes (6 symbols drawn from an
alphanumeric alphabet).  `jsTrim` strips the JS WhiteSpace/LineTerminator
characters from both ends; `jsToUpperAscii` maps `a`..`z` to `A`..`Z` and
leaves every other character unchanged. -/

def isJsWhitespace (c : Char) : Bool :=
  c = ' ' || c = '\t' || c = '\n' || c = '\r' ||
  c = Char.ofNat 11 || c = Char.ofNat 12

def jsTrimChars (cs : List Char) : List Char :=
  ((cs.dropWhile isJsWhitespace).reverse.dropWhile isJsWhitespace).reverse

def jsTrim (s : String) : String :=
  String.mk (jsTrimChars s.toList)

def upperAsciiChar (c : Char) : Char :=
  if 'a' ≤ c ∧ c ≤ 'z' then Char.ofNat (c.toNat - 32) else c

def jsToUpperAscii (s : String) : String :=
  String.mk (s.toList.map upperAsciiChar)

/-- `payload.code?.trim().toUpperCase()` — the normalization applied by the
broker's `handleJoin` / `handleSignal` and by the CLI client's `join`. -/
def normalizeCode (s : String) : String :=
  jsToUpperAscii (jsTrim s)

/-! ## UTF-8 encoding (`TextEncoder.encode`)

Bytes are modelled as `Nat` (each `< 256`).  Standard UTF-8 encoding of a
Unicode scalar value, as produced by the JS `TextEncoder`. -/

def utf8EncodeChar (c : Char) : List Nat :=
  let n := c.toNat
  if n < 0x80 then [n]
  else if n < 0x800 then
    [0xC0 + n / 64, 0x80 + n % 64]
  else if n < 0x10000 then
    [0xE0 + n / 4096, 0x80 + n / 64 % 64, 0x80 + n % 64]
  else
    [0xF0 + n / 262144, 0x80 + n / 4096 % 64, 0x80 + n / 64 % 64, 0x80 + n % 64]

def utf8Encode (s : String) : List Nat :=
  (s.toList.map utf8EncodeChar).flatten

/-! ## Chunk codec (`apps/pwa/src/lib/utils/fileChunker.ts`, byte revision)

```ts
export const CHUNK_SIZE = 16 * 1024;

export function chunkText(text: string, chunkSize = CHUNK_SIZE): Uint8Array[] {
  const bytes = new TextEncoder().encode(text);
  const chunks: Uint8Array[] = [];
  for (let i = 0; i < bytes.length; i += chunkSize) {
    chunks.push(bytes.slice(i, i + chunkSize));
  }
  return chunks;
}

export async function* chunkFile(file: File, chunkSize = CHUNK_SIZE) {
  let offset = 0;
  while (offset < file.size) {
    const slice = file.slice(offset, offset + chunkSize);
    yield new Uint8Array(await slice.arrayBuffer());
    offset += chunkSize;
  }
}
```

Both loops walk the payload from the front, emitting `slice(i, i + size)`
pieces; `chunkBytes` is that loop (the `chunkSize = 0` guard is unreachable
for the fixed `CHUNK_SIZE` and only serves termination). -/

def CHUNK_SIZE : Nat := 16 * 1024

def chunkBytes {α : Type} : List α → Nat → List (List α)
  | [], _ => []
  | b :: bs, chunkSize =>
    if chunkSize = 0 then []
    else (b :: bs).take chunkSize :: chunkBytes ((b :: bs).drop chunkSize) chunkSize
termination_by bytes _ => bytes.length
decreasing_by
  simp only [List.length_drop, List.length_cons]
  omega

/-- `chunkText(text, CHUNK_SIZE)`: encode the text to UTF-8 bytes, then
slice. -/
def chunkText (text : String) : List (List Nat) :=
  chunkBytes (utf8Encode text) CHUNK_SIZE

/-- `chunkFile(file, CHUNK_SIZE)`: slice the file's bytes. -/
def chunkFile (fileBytes : List Nat) : List (List Nat) :=
  chunkBytes fileBytes CHUNK_SIZE

end Pinq

namespace Pinq

/-! ## Room broker (`apps/signaling/src/server.ts`, role-aware revision)

The broker keeps `rooms : Map<string, RoomState>` with
`RoomState = { code, sockets: Set<socketId>, timer }` and reacts to the
socket.io events `join-room`, `signal` and `disconnect`; a `setTimeout`
of `ROOM_TTL_MS` reaps inactive rooms.

JS timers are modelled explicitly: `BrokerState.timers` is the list of
armed, not-yet-cleared timeouts (`TimerRec.expiryBroadcast` distinguishes
the `scheduleRoomExpiry` callback, which broadcasts `room-expired`, from
the silent `clearRoom` callback armed at room creation and immediately
replaced).  `io.to(code).emit` / `socket.to(code).emit` broadcasts are
modelled against the room's member set, which mirrors the socket.io room
(`socket.join` on join, `socketsLeave` on expiry, automatic leave on
disconnect). -/

abbrev SocketId := Nat

def ROOM_TTL_MS : Nat := 5 * 60 * 1000

structure JoinRoomPayload where
  code : String
  role : Option String
deriving DecidableEq, Repr

structure SignalPayload where
  code : String
  signal : String
deriving DecidableEq, Repr

/-- An armed `setTimeout` created by the broker. -/
structure TimerRec where
  id : Nat
  code : String
  deadline : Nat
  expiryBroadcast : Bool
deriving DecidableEq, Repr

structure RoomState where
  code : String
  sockets : List SocketId
  timer : Nat
deriving DecidableEq, Repr

structure BrokerState where
  rooms : List RoomState
  timers : List TimerRec
  nextTimerId : Nat
deriving DecidableEq, Repr

def brokerInit : BrokerState := ⟨[], [], 0⟩

/-- Events the broker emits to individual sockets. -/
inductive Emit
  | errorMsg (dest : SocketId) (message : String)
  | roomJoined (dest : SocketId) (code : String)
  | roomFull (dest : SocketId) (code : String)
  | roomNotFound (dest : SocketId) (code : String)
  | peerJoined (dest : SocketId) (peerId : SocketId) (code : String)
  | peerDisconnected (dest : SocketId) (peerId : SocketId) (code : String)
  | roomExpired (dest : SocketId) (code : String)
  | signalRelay (dest : SocketId) (signal : String) (fromId : SocketId)
deriving DecidableEq, Repr

/-- `rooms.get(code)` on the underlying entry list (first entry with the
key; a JS `Map` has at most one). -/
def lookupRoomL : List RoomState → String → Option RoomState
  | [], _ => none
  | r :: rs, code => if r.code = code then some r else lookupRoomL rs code

/-- `rooms.set(code, state)` on the underlying entry list: replace the
keyed entry in place, or append a new one (JS `Map` insertion order). -/
def setRoomL : List RoomState → RoomState → List RoomState
  | [], room => [room]
  | r :: rs, room => if r.code = room.code then room :: rs else r :: setRoomL rs room

/-- `rooms.get(code)`. -/
def lookupRoom (st : BrokerState) (code : String) : Option RoomState :=
  lookupRoomL st.rooms code

/-- `rooms.set(code, state)`. -/
def setRoom (st : BrokerState) (room : RoomState) : BrokerState :=
  { st with rooms := setRoomL st.rooms room }

/-- `clearTimeout(tid)`: the armed timeout is cancelled. -/
def clearTimeoutB (st : BrokerState) (tid : Nat) : BrokerState :=
  { st with timers := st.timers.filter (fun t => t.id ≠ tid) }

/-- Look up an armed timeout by id. -/
def findTimer : List TimerRec → Nat → Option TimerRec
  | [], _ => none
  | t :: ts, tid => if t.id = tid then some t else findTimer ts tid

/-- `setTimeout(cb, ROOM_TTL_MS)` at time `now`: arm a fresh timeout and
return its id. -/
def setTimeoutB (st : BrokerState) (code : String) (now : Nat)
    (expiryBroadcast : Bool) : BrokerState × Nat :=
  ({ st with
      timers := st.timers ++ [⟨st.nextTimerId, code, now + ROOM_TTL_MS, expiryBroadcast⟩],
      nextTimerId := st.nextTimerId + 1 },
    st.nextTimerId)

/-- `clearRoom(code)`: cancel the room's timer and delete the room. -/
def clearRoom (st : BrokerState) (code : String) : BrokerState :=
  match lookupRoom st code with
  | none => st
  | some room =>
    let st1 := clearTimeoutB st room.timer
    { st1 with rooms := st1.rooms.filter (fun r => r.code ≠ code) }

/-- `scheduleRoomExpiry(code)` at time `now`: cancel the room's pending
timer, then arm a fresh `room-expired` timeout due at `now + ROOM_TTL_MS`. -/
def scheduleRoomExpiry (st : BrokerState) (code : String) (now : Nat) : BrokerState :=
  match lookupRoom st code with
  | none => st
  | some existing =>
    let st1 := clearTimeoutB st existing.timer
    let (st2, tid) := setTimeoutB st1 code now true
    setRoom st2 { existing with timer := tid }

/-- `Set.add`: insertion-ordered, ignores an already-present element. -/
def addSocket (sockets : List SocketId) (sid : SocketId) : List SocketId :=
  if sid ∈ sockets then sockets else sockets ++ [sid]

/-- The tail of `handleJoin` shared by both join paths:
`state.sockets.add(socket.id); socket.join(code); scheduleRoomExpiry(code);
socket.emit('room-joined'); socket.to(code).emit('peer-joined')`. -/
def joinRoomTail (sid : SocketId) (code : String) (state : RoomState)
    (st : BrokerState) (now : Nat) : BrokerState × List Emit :=
  let state1 := { state with sockets := addSocket state.sockets sid }
  let st1 := setRoom st state1
  let st2 := scheduleRoomExpiry st1 code now
  (st2,
    Emit.roomJoined sid code ::
      (state1.sockets.filter (fun m => m ≠ sid)).map (fun m => Emit.peerJoined m sid code))

/-- `handleJoin(socket, payload)` at time `now`. -/
def handleJoin (sid : SocketId) (payload : JoinRoomPayload) (now : Nat)
    (st : BrokerState) : BrokerState × List Emit :=
  let code := normalizeCode payload.code
  let role := if payload.role == some "creator" then "creator" else "guest"
  if code = "" then
    (st, [Emit.errorMsg sid "Invalid room code"])
  else
    match lookupRoom st code with
    | some state =>
      if 2 ≤ state.sockets.length then (st, [Emit.roomFull sid code])
      else joinRoomTail sid code state st now
    | none =>
      if role = "guest" then (st, [Emit.roomNotFound sid code])
      else
        let (st1, tid) := setTimeoutB st code now false
        let state : RoomState := ⟨code, [], tid⟩
        let st2 := setRoom st1 state
        joinRoomTail sid code state st2 now

/-- `handleSignal(socket, payload)` at time `now`. -/
def handleSignal (sid : SocketId) (payload : SignalPayload) (now : Nat)
    (st : BrokerState) : BrokerState × List Emit :=
  let code := normalizeCode payload.code
  if code = "" then (st, [Emit.roomNotFound sid code])
  else
    match lookupRoom st code with
    | none => (st, [Emit.roomNotFound sid code])
    | some room =>
      let emits := (room.sockets.filter (fun m => m ≠ sid)).map
        (fun m => Emit.signalRelay m payload.signal sid)
      (scheduleRoomExpiry st code now, emits)

/-- One iteration of `handleDisconnect`'s `for (const [code, state] of
rooms.entries())` loop: if the socket is a member, delete it
(`Set.delete`), emit `peer-disconnected` to the remaining members, and
either tear the room down (membership zero) or renew its TTL. -/
def disconnectStep (sid : SocketId) (now : Nat) (acc : BrokerState × List Emit)
    (code : String) : BrokerState × List Emit :=
  let (st, emits) := acc
  match lookupRoom st code with
  | none => (st, emits)
  | some state =>
    if sid ∈ state.sockets then
      let state1 := { state with sockets := state.sockets.filter (fun m => m ≠ sid) }
      let st1 := setRoom st state1
      let newEmits := state1.sockets.map (fun m => Emit.peerDisconnected m sid code)
      if state1.sockets.length = 0 then (clearRoom st1 code, emits ++ newEmits)
      else (scheduleRoomExpiry st1 code now, emits ++ newEmits)
    else (st, emits)

/-- `handleDisconnect(socket)` at time `now`: walk every room the socket
belongs to, remove it, notify the remaining member, and either tear the
room down or renew its TTL. -/
def handleDisconnect (sid : SocketId) (now : Nat) (st : BrokerState) :
    BrokerState × List Emit :=
  (st.rooms.map (fun r => r.code)).foldl (disconnectStep sid now) (st, [])

/-- A `setTimeout` callback fires: the timeout is spent, then the callback
runs (`scheduleRoomExpiry`'s broadcast-and-teardown, or the creation
timer's silent `clearRoom`).  Firing an unknown id is a no-op. -/
def fireTimer (tid : Nat) (st : BrokerState) : BrokerState × List Emit :=
  match findTimer st.timers tid with
  | none => (st, [])
  | some t =>
    let st1 := { st with timers := st.timers.filter (fun u => u.id ≠ tid) }
    if t.expiryBroadcast then
      match lookupRoom st1 t.code with
      | none => (st1, [])
      | some room =>
        let emits := room.sockets.map (fun m => Emit.roomExpired m t.code)
        (clearRoom st1 t.code, emits)
    else (clearRoom st1 t.code, [])

/-- Broker states reachable from startup through the socket.io handlers
and timer firings. -/
inductive Reachable : BrokerState → Prop
  | init : Reachable brokerInit
  | join (sid : SocketId) (payload : JoinRoomPayload) (now : Nat) {st : BrokerState} :
      Reachable st → Reachable (handleJoin sid payload now st).1
  | signal (sid : SocketId) (payload : SignalPayload) (now : Nat) {st : BrokerState} :
      Reachable st → Reachable (handleSignal sid payload now st).1
  | disconnect (sid : SocketId) (now : Nat) {st : BrokerState} :
      Reachable st → Reachable (handleDisconnect sid now st).1
  | fire (tid : Nat) {st : BrokerState} :
      Reachable st → Reachable (fireTimer tid st).1

end Pinq

namespace Pinq

/-- The armed timeouts whose callback concerns `code`. -/
def timersFor (st : BrokerState) (code : String) : List TimerRec :=
  st.timers.filter (fun t => t.code = code)

end Pinq

namespace Pinq

/-! ## Control markers

`@pinq/shared` (the workspace package `apps/shared/`) exports the marker
constants.  Modelled from the spec: the repository's protocol guide fixes
the canonical spellings as `__PINQ_CTRL__EOF` / `__PINQ_CTRL__ACK` with the
legacy short forms `EOF` / `ACK` kept for backward compatibility. -/

def EOF_MARKER : String := "__PINQ_CTRL__EOF"

def ACK_MARKER : String := "__PINQ_CTRL__ACK"

/-- Data arriving on (or sent over) the data channel: a string or a binary
buffer. -/
inductive WireData
  | bytes (bs : List Nat)
  | str (s : String)
deriving DecidableEq, Repr

def EOF_BYTES : List Nat := utf8Encode EOF_MARKER

def LEGACY_EOF_BYTES : List Nat := utf8Encode "EOF"

/-- `toUint8Array(chunk)` from the PWA receiver helpers. -/
def toUint8Array (chunk : WireData) : List Nat :=
  match chunk with
  | .str s => utf8Encode s
  | .bytes bs => bs

/-- `isMarkerChunk(chunk, marker, markerBytes)`: a string chunk is compared
to the marker text, a binary chunk byte-by-byte to the marker's bytes. -/
def isMarkerChunk (chunk : WireData) (marker : String) (markerBytes : List Nat) : Bool :=
  match chunk with
  | .str s => s == marker
  | .bytes _ => toUint8Array chunk == markerBytes

/-- `isEofChunk(chunk)`: the receiver accepts the canonical and the legacy
end-of-payload spellings. -/
def isEofChunk (chunk : WireData) : Bool :=
  isMarkerChunk chunk EOF_MARKER EOF_BYTES || isMarkerChunk chunk "EOF" LEGACY_EOF_BYTES

/-- The comparison in `WebRTCSender.waitForAck`'s data handler
(`payload === ACK_MARKER || payload === 'ACK'`), applied to the payload
text (a binary chunk is first decoded by `TextDecoder`). -/
def waitForAckAccepts (payload : String) : Bool :=
  payload == ACK_MARKER || payload == "ACK"

/-- `WebRTCReceiver.sendAck` (CLI): when the peer is connected it sends the
canonical marker and then the legacy one for backward compatibility. -/
def sendAck (connected : Bool) : List String :=
  if connected then [ACK_MARKER, "ACK"] else []

/-! ## Metadata frame codec

The sender builds the metadata object and ships `JSON.stringify(metadata)`
as the first message; the receiver applies `JSON.parse` and reads the
`type` / `filename` / `size` / `mimeType` properties.  The JS `JSON`
codec is an external collaborator whose serialization is value-faithful,
so it is modelled at the level of JSON values: `JSON.stringify` maps the
object literal to a `Json` value with `undefined` properties omitted, and
`JSON.parse` recovers that value. -/

inductive MetaKind
  | text
  | file
deriving DecidableEq, Repr

/-- `Metadata` from `types.ts`: `{ type: 'text' | 'file';  filename?;
size?;  mimeType? }`. -/
structure Metadata where
  type : MetaKind
  filename : Option String := none
  size : Option Int := none
  mimeType : Option String := none
deriving DecidableEq, Repr

inductive Json
  | null
  | bool (b : Bool)
  | num (n : Int)
  | str (s : String)
  | arr (elems : List Json)
  | obj (fields : List (String × Json))
deriving Repr

def metaKindStr (k : MetaKind) : String :=
  match k with
  | .text => "text"
  | .file => "file"

/-- One optional object property: omitted entirely when `undefined`. -/
def optField (name : String) (v : Option Json) : List (String × Json) :=
  match v with
  | none => []
  | some j => [(name, j)]

/-- `JSON.stringify({type, filename, size, mimeType})` as a JSON value. -/
def encodeMetadata (m : Metadata) : Json :=
  .obj (("type", .str (metaKindStr m.type)) ::
    (optField "filename" (m.filename.map .str) ++
     optField "size" (m.size.map .num) ++
     optField "mimeType" (m.mimeType.map .str)))

def lookupField : List (String × Json) → String → Option Json
  | [], _ => none
  | (k, v) :: rest, name => if k = name then some v else lookupField rest name

def fieldStr (fields : List (String × Json)) (name : String) : Option String :=
  match lookupField fields name with
  | some (.str s) => some s
  | _ => none

def fieldNum (fields : List (String × Json)) (name : String) : Option Int :=
  match lookupField fields name with
  | some (.num n) => some n
  | _ => none

/-- The receiver's view of `JSON.parse(metaString) as Metadata`: read the
`type` discriminator and the optional properties. -/
def decodeMetadata (j : Json) : Option Metadata :=
  match j with
  | .obj fields =>
    match lookupField fields "type" with
    | some (.str "text") =>
      some ⟨.text, fieldStr fields "filename", fieldNum fields "size",
        fieldStr fields "mimeType"⟩
    | some (.str "file") =>
      some ⟨.file, fieldStr fields "filename", fieldNum fields "size",
        fieldStr fields "mimeType"⟩
    | _ => none
  | _ => none

/-! ## Sender pipeline (`WebRTCSender.sendText` / `sendFile` and the
`App.svelte` guards)

A transfer emits, in order: the metadata frame, the payload chunks, and
one end-of-payload control marker.  `App.svelte` guards the transfer
before any signaling or handshake: an empty text and a missing file are
rejected, and a file larger than 50 MiB is rejected locally
(`selectedFile.size > 50 * 1024 * 1024`); `sendText` has no size
check. -/

inductive Frame
  | metadata (m : Metadata)
  | chunk (bs : List Nat)
  | ctrl (s : String)
deriving DecidableEq, Repr

/-- `sendText`: metadata `{type:'text'}`, the chunks of the UTF-8 encoded
text, then `peer.send(EOF_MARKER)`. -/
def sendTextFrames (text : String) : List Frame :=
  Frame.metadata { type := .text } ::
    (chunkText text).map Frame.chunk ++ [Frame.ctrl EOF_MARKER]

/-- A selected `File`: name, contents, mime type; `file.size` is its byte
length. -/
structure FileData where
  name : String
  bytes : List Nat
  mimeType : String
deriving DecidableEq, Repr

def FileData.size (f : FileData) : Nat := f.bytes.length

/-- `sendFile`: metadata `{type:'file', filename, size, mimeType}`, the
file's chunks, then `peer.send(EOF_MARKER)`. -/
def sendFileFrames (f : FileData) : List Frame :=
  Frame.metadata
      { type := .file, filename := some f.name, size := some (f.size : Int),
        mimeType := some f.mimeType } ::
    (chunkFile f.bytes).map Frame.chunk ++ [Frame.ctrl EOF_MARKER]

def MAX_FILE_SIZE : Nat := 50 * 1024 * 1024

/-- The outcome of an `App.svelte` send action: a local rejection happens
before `ensureSender()`, i.e. before any signaling, handshake, or frame
is attempted. -/
inductive AppSendResult
  | localError (message : String)
  | transfer (frames : List Frame)
deriving DecidableEq, Repr

/-- `App.svelte` `sendFile()`: missing file and oversized file are
rejected locally; otherwise the transfer proceeds. -/
def appSendFile (selectedFile : Option FileData) : AppSendResult :=
  match selectedFile with
  | none => .localError "Pick a file to send."
  | some f =>
    if f.size > MAX_FILE_SIZE then .localError "Max file size is 50 MB."
    else .transfer (sendFileFrames f)

/-- `App.svelte` `sendText()`: only emptiness is checked
(`if (!textValue.trim())`); there is no size check. -/
def appSendText (textValue : String) : AppSendResult :=
  if jsTrim textValue = "" then .localError "Enter text to send."
  else .transfer (sendTextFrames textValue)

/-! ## CLI client join (`apps/cli/src/webrtc/signaling.ts`) -/

/-- The `join-room` payload the CLI `SignalingClient.join` emits:
`{ code: code.trim().toUpperCase(), role: 'guest' }`. -/
def cliJoinEmitPayload (code : String) : JoinRoomPayload :=
  { code := normalizeCode code, role := some "guest" }

end Pinq

namespace Pinq

/-! ## PWA `SignalingClient` handler registry
(`apps/pwa/src/lib/webrtc/signaling.ts`)

The client keeps two subscription `Set`s, `signalHandlers` and
`peerJoinedHandlers`.  `connect()` creates the socket and wires its
`signal` / `peer-joined` events to dispatch over those sets; inbound
events are delivered only while a connected socket exists.
`disconnect()` runs `socket.disconnect(); socket = null;
signalHandlers.clear()` — it does *not* clear `peerJoinedHandlers`.
Handlers are identified by numeric ids. -/

structure ClientState where
  socketOpen : Bool
  signalHandlers : List Nat
  peerJoinedHandlers : List Nat
deriving DecidableEq, Repr

def clientInit : ClientState := ⟨false, [], []⟩

/-- `Set.add` for the handler registries. -/
def setAdd (xs : List Nat) (x : Nat) : List Nat :=
  if x ∈ xs then xs else xs ++ [x]

inductive ClientOp
  | connect
  | onSignal (h : Nat)
  | onPeerJoined (h : Nat)
  | offSignal (h : Nat)
  | offPeerJoined (h : Nat)
  | inboundSignal
  | inboundPeerJoined
  | disconnect
deriving DecidableEq, Repr

/-- One client operation: the next state and the list of handlers the
operation dispatches to. -/
def clientStep (st : ClientState) : ClientOp → ClientState × List Nat
  | .connect => ({ st with socketOpen := true }, [])
  | .onSignal h => ({ st with signalHandlers := setAdd st.signalHandlers h }, [])
  | .onPeerJoined h => ({ st with peerJoinedHandlers := setAdd st.peerJoinedHandlers h }, [])
  | .offSignal h => ({ st with signalHandlers := st.signalHandlers.filter (fun x => x ≠ h) }, [])
  | .offPeerJoined h =>
    ({ st with peerJoinedHandlers := st.peerJoinedHandlers.filter (fun x => x ≠ h) }, [])
  | .inboundSignal => (st, if st.socketOpen then st.signalHandlers else [])
  | .inboundPeerJoined => (st, if st.socketOpen then st.peerJoinedHandlers else [])
  | .disconnect =>
    ({ socketOpen := false, signalHandlers := [],
       peerJoinedHandlers := st.peerJoinedHandlers }, [])

/-- Run a sequence of operations, keeping only the final state. -/
def runClient (st : ClientState) (ops : List ClientOp) : ClientState :=
  ops.foldl (fun s op => (clientStep s op).1) st

/-- All handler invocations a sequence of operations dispatches, in
order. -/
def allDispatches (st : ClientState) : List ClientOp → List Nat
  | [] => []
  | op :: rest => (clientStep st op).2 ++ allDispatches (clientStep st op).1 rest

/-- The handler invocations dispatched for inbound `signal` events only. -/
def signalDispatches (st : ClientState) : List ClientOp → List Nat
  | [] => []
  | op :: rest =>
    (if op = ClientOp.inboundSignal then (clientStep st op).2 else []) ++
      signalDispatches (clientStep st op).1 rest

end Pinq

namespace Pinq

/-- A 50 MiB + 1 byte text payload (ASCII, so one byte per character). -/
def bigText : String := String.mk (List.replicate (MAX_FILE_SIZE + 1) 'a')

end Pinq

namespace Pinq

/-! ### The broker invariant

Reachable broker states tie rooms and timers together: room codes are
unique, every room holds at most 2 distinct sockets, timer ids are unique
and below the id counter, every armed timeout is the `room-expired`
broadcast of exactly the room whose `timer` field names it, and every room
has an armed timeout for its code. -/

structure BrokerInv (st : BrokerState) : Prop where
  roomCodes : (st.rooms.map (fun r => r.code)).Nodup
  sockNodup : ∀ r ∈ st.rooms, r.sockets.Nodup
  sockLe2 : ∀ r ∈ st.rooms, r.sockets.length ≤ 2
  timerIds : (st.timers.map (fun t => t.id)).Nodup
  fresh : ∀ t ∈ st.timers, t.id < st.nextTimerId
  bcast : ∀ t ∈ st.timers, t.expiryBroadcast = true
  owner : ∀ t ∈ st.timers, ∃ r ∈ st.rooms, r.code = t.code ∧ r.timer = t.id
  hasTimer : ∀ r ∈ st.rooms, ∃ t ∈ st.timers, t.code = r.code

end Pinq

namespace Pinq

theorem chunkBytes_nil {α : Type} (chunkSize : Nat) :
    chunkBytes ([] : List α) chunkSize = [] := by
  rw [chunkBytes.eq_def]

theorem chunkBytes_cons {α : Type} (b : α) (bs : List α) (chunkSize : Nat)
    (hc : chunkSize ≠ 0) :
    chunkBytes (b :: bs) chunkSize =
      (b :: bs).take chunkSize :: chunkBytes ((b :: bs).drop chunkSize) chunkSize := by
  rw [chunkBytes.eq_def]
  simp [hc]

theorem chunkBytes_flatten {α : Type} (bytes : List α) (chunkSize : Nat)
    (hc : chunkSize ≠ 0) :
    (chunkBytes bytes chunkSize).flatten = bytes := by
  match bytes with
  | [] => simp [chunkBytes_nil]
  | b :: bs =>
    rw [chunkBytes_cons b bs chunkSize hc]
    rw [List.flatten_cons,
      chunkBytes_flatten ((b :: bs).drop chunkSize) chunkSize hc,
      List.take_append_drop]
termination_by bytes.length
decreasing_by
  simp only [List.length_drop, List.length_cons]
  omega

theorem chunkBytes_length_le {α : Type} (bytes : List α) (chunkSize : Nat)
    (c : List α) (hmem : c ∈ chunkBytes bytes chunkSize) :
    c.length ≤ chunkSize := by
  match bytes with
  | [] => simp [chunkBytes_nil] at hmem
  | b :: bs =>
    by_cases hc : chunkSize = 0
    · rw [chunkBytes.eq_def] at hmem
      simp [hc] at hmem
    · rw [chunkBytes_cons b bs chunkSize hc] at hmem
      rcases List.mem_cons.mp hmem with hh | ht
      · subst hh
        simp
      · exact chunkBytes_length_le ((b :: bs).drop chunkSize) chunkSize c ht
termination_by bytes.length
decreasing_by
  simp only [List.length_drop, List.length_cons]
  omega

theorem chunkBytes_count {α : Type} (bytes : List α) (chunkSize : Nat)
    (hc : chunkSize ≠ 0) :
    (chunkBytes bytes chunkSize).length = (bytes.length + chunkSize - 1) / chunkSize := by
  match bytes with
  | [] =>
    have : chunkSize - 1 < chunkSize := by omega
    simp [chunkBytes_nil, Nat.div_eq_of_lt this]
  | b :: bs =>
    rw [chunkBytes_cons b bs chunkSize hc]
    have hlen : 0 < (b :: bs).length := by simp
    rw [List.length_cons,
      chunkBytes_count ((b :: bs).drop chunkSize) chunkSize hc]
    simp only [List.length_drop]
    rcases Nat.lt_or_ge chunkSize (b :: bs).length with hlt | hge
    · -- more than one chunk: (n - c + c - 1)/c + 1 = (n + c - 1)/c
      have h1 : (b :: bs).length - chunkSize + chunkSize - 1 = (b :: bs).length - 1 := by
        omega
      have h2 : (b :: bs).length + chunkSize - 1 = ((b :: bs).length - 1) + chunkSize := by
        omega
      rw [h1, h2, Nat.add_div_right _ (Nat.pos_of_ne_zero hc)]
    · -- the final (single) chunk: length ≤ chunkSize
      have h1 : (b :: bs).length - chunkSize = 0 := by omega
      have h2 : (chunkSize - 1) / chunkSize = 0 := Nat.div_eq_of_lt (by omega)
      have h3 : (b :: bs).length + chunkSize - 1 = ((b :: bs).length - 1) + chunkSize := by
        omega
      rw [h1, h3, Nat.add_div_right _ (Nat.pos_of_ne_zero hc)]
      have h4 : ((b :: bs).length - 1) / chunkSize = 0 := Nat.div_eq_of_lt (by omega)
      simp only [Nat.zero_add]
      rw [h2, h4]
termination_by bytes.length
decreasing_by
  simp only [List.length_drop, List.length_cons]
  omega

end Pinq

namespace Pinq

/-! ### Association-list lemmas for the room map and the timer list -/

theorem lookupRoomL_setRoomL_self (rooms : List RoomState) (room : RoomState) :
    lookupRoomL (setRoomL rooms room) room.code = some room := by
  induction rooms with
  | nil => simp [lookupRoomL, setRoomL]
  | cons r rs ih =>
    by_cases hr : r.code = room.code
    · simp [setRoomL, lookupRoomL, hr]
    · simp [setRoomL, lookupRoomL, hr, ih]

theorem lookupRoomL_setRoomL_other (rooms : List RoomState) (room : RoomState)
    (c : String) (hc : c ≠ room.code) :
    lookupRoomL (setRoomL rooms room) c = lookupRoomL rooms c := by
  have hcr : room.code ≠ c := Ne.symm hc
  induction rooms with
  | nil => simp [lookupRoomL, setRoomL, hcr]
  | cons r rs ih =>
    by_cases hr : r.code = room.code
    · have hrc : r.code ≠ c := hr ▸ hcr
      simp [setRoomL, lookupRoomL, hr, hcr, hrc]
    · by_cases hrc : r.code = c
      · simp [setRoomL, lookupRoomL, hr, hrc, hc]
      · simp [setRoomL, lookupRoomL, hr, hrc, ih]

theorem mem_setRoomL (rooms : List RoomState) (room r : RoomState)
    (hmem : r ∈ setRoomL rooms room) : r = room ∨ r ∈ rooms := by
  induction rooms with
  | nil => simpa [setRoomL] using hmem
  | cons x xs ih =>
    by_cases hx : x.code = room.code
    · simp only [setRoomL, if_pos hx, List.mem_cons] at hmem
      rcases hmem with h | h
      · exact Or.inl h
      · exact Or.inr (List.mem_cons_of_mem _ h)
    · simp only [setRoomL, if_neg hx, List.mem_cons] at hmem
      rcases hmem with h | h
      · exact Or.inr (h ▸ List.mem_cons_self x xs)
      · rcases ih h with h1 | h1
        · exact Or.inl h1
        · exact Or.inr (List.mem_cons_of_mem _ h1)

theorem setRoomL_codes (rooms : List RoomState) (room : RoomState) :
    (setRoomL rooms room).map (fun r => r.code) =
      if room.code ∈ rooms.map (fun r => r.code) then rooms.map (fun r => r.code)
      else rooms.map (fun r => r.code) ++ [room.code] := by
  induction rooms with
  | nil => simp [setRoomL]
  | cons x xs ih =>
    by_cases hx : x.code = room.code
    · simp [setRoomL, hx]
    · have hx1 : room.code ≠ x.code := Ne.symm hx
      by_cases hmem : room.code ∈ xs.map (fun r => r.code)
      · simp [setRoomL, hx, hmem, ih, hx1]
      · simp [setRoomL, hx, hmem, ih, hx1]

theorem findTimer_eq_none (timers : List TimerRec) (tid : Nat)
    (h : ∀ t ∈ timers, t.id ≠ tid) : findTimer timers tid = none := by
  induction timers with
  | nil => simp [findTimer]
  | cons t ts ih =>
    have ht := h t (List.mem_cons_self t ts)
    simp only [findTimer, if_neg ht]
    exact ih (fun u hu => h u (List.mem_cons_of_mem _ hu))

theorem findTimer_mem (timers : List TimerRec) (tid : Nat) (t : TimerRec)
    (h : findTimer timers tid = some t) : t ∈ timers ∧ t.id = tid := by
  induction timers with
  | nil => simp [findTimer] at h
  | cons u us ih =>
    by_cases hu : u.id = tid
    · simp only [findTimer, if_pos hu, Option.some.injEq] at h
      exact ⟨h ▸ List.mem_cons_self u us, h ▸ hu⟩
    · simp only [findTimer, if_neg hu] at h
      rcases ih h with ⟨h1, h2⟩
      exact ⟨List.mem_cons_of_mem _ h1, h2⟩

end Pinq

namespace Pinq

theorem lookupRoomL_code (rooms : List RoomState) (c : String) (r : RoomState)
    (h : lookupRoomL rooms c = some r) : r.code = c ∧ r ∈ rooms := by
  induction rooms with
  | nil => simp [lookupRoomL] at h
  | cons x xs ih =>
    by_cases hx : x.code = c
    · simp only [lookupRoomL, if_pos hx, Option.some.injEq] at h
      exact ⟨h ▸ hx, h ▸ List.mem_cons_self x xs⟩
    · simp only [lookupRoomL, if_neg hx] at h
      rcases ih h with ⟨h1, h2⟩
      exact ⟨h1, List.mem_cons_of_mem _ h2⟩

theorem lookupRoomL_eq_none (rooms : List RoomState) (c : String)
    (h : lookupRoomL rooms c = none) : ∀ r ∈ rooms, r.code ≠ c := by
  induction rooms with
  | nil => simp
  | cons x xs ih =>
    by_cases hx : x.code = c
    · simp [lookupRoomL, hx] at h
    · simp only [lookupRoomL, if_neg hx] at h
      intro r hr
      rcases List.mem_cons.mp hr with h1 | h1
      · exact h1 ▸ hx
      · exact ih h r h1

theorem setRoomL_of_absent (rooms : List RoomState) (room : RoomState)
    (h : ∀ r ∈ rooms, r.code ≠ room.code) : setRoomL rooms room = rooms ++ [room] := by
  induction rooms with
  | nil => simp [setRoomL]
  | cons x xs ih =>
    have hx := h x (List.mem_cons_self x xs)
    simp only [setRoomL, if_neg hx, List.cons_append]
    rw [ih (fun r hr => h r (List.mem_cons_of_mem _ hr))]

theorem setRoomL_setRoomL (rooms : List RoomState) (a b : RoomState)
    (hab : b.code = a.code) : setRoomL (setRoomL rooms a) b = setRoomL rooms b := by
  induction rooms with
  | nil => simp [setRoomL, hab]
  | cons x xs ih =>
    by_cases hx : x.code = a.code
    · simp [setRoomL, hx, hab, hab ▸ hx]
    · have hxb : ¬x.code = b.code := fun h => hx (h.trans hab)
      simp [setRoomL, hx, hxb, ih]

/-- Replacing a looked-up room by a copy that differs only in its timer id
leaves the (code, sockets) projection of the map unchanged. -/
theorem setRoomL_map_code_sockets (rooms : List RoomState) (c : String)
    (room : RoomState) (h : lookupRoomL rooms c = some room) (n : Nat) :
    (setRoomL rooms { room with timer := n }).map (fun r => (r.code, r.sockets)) =
      rooms.map (fun r => (r.code, r.sockets)) := by
  induction rooms with
  | nil => simp [lookupRoomL] at h
  | cons x xs ih =>
    by_cases hx : x.code = c
    · simp only [lookupRoomL, if_pos hx, Option.some.injEq] at h
      subst h
      simp [setRoomL, hx]
    · simp only [lookupRoomL, if_neg hx] at h
      have hcode : room.code = c := (lookupRoomL_code xs c room h).1
      have hxr : ¬x.code = room.code := fun hh => hx (hh.trans hcode)
      simp [setRoomL, hxr, ih h]

end Pinq

namespace Pinq

/-! ### Characterizations of the broker handlers -/


theorem scheduleRoomExpiry_spec (st : BrokerState) (code : String) (now : Nat)
    (ex : RoomState) (h : lookupRoom st code = some ex) :
    scheduleRoomExpiry st code now =
      { rooms := setRoomL st.rooms { ex with timer := st.nextTimerId },
        timers := st.timers.filter (fun t => t.id ≠ ex.timer) ++
          [⟨st.nextTimerId, code, now + ROOM_TTL_MS, true⟩],
        nextTimerId := st.nextTimerId + 1 } := by
  unfold scheduleRoomExpiry
  rw [h]
  simp [clearTimeoutB, setTimeoutB, setRoom]

theorem handleSignal_exists_spec (sid : SocketId) (p : SignalPayload) (now : Nat)
    (st : BrokerState) (room : RoomState)
    (hc : normalizeCode p.code ≠ "")
    (h : lookupRoom st (normalizeCode p.code) = some room) :
    handleSignal sid p now st =
      ({ rooms := setRoomL st.rooms { room with timer := st.nextTimerId },
         timers := st.timers.filter (fun t => t.id ≠ room.timer) ++
           [⟨st.nextTimerId, normalizeCode p.code, now + ROOM_TTL_MS, true⟩],
         nextTimerId := st.nextTimerId + 1 },
       (room.sockets.filter (fun m => m ≠ sid)).map
         (fun m => Emit.signalRelay m p.signal sid)) := by
  unfold handleSignal
  rw [if_neg hc, h, scheduleRoomExpiry_spec st (normalizeCode p.code) now room h]

theorem handleSignal_none_spec (sid : SocketId) (p : SignalPayload) (now : Nat)
    (st : BrokerState) (h : lookupRoom st (normalizeCode p.code) = none) :
    handleSignal sid p now st =
      (st, [Emit.roomNotFound sid (normalizeCode p.code)]) := by
  unfold handleSignal
  by_cases hc : normalizeCode p.code = ""
  · rw [if_pos hc]
  · rw [if_neg hc, h]

theorem handleJoin_full_spec (sid : SocketId) (p : JoinRoomPayload) (now : Nat)
    (st : BrokerState) (room : RoomState)
    (hc : normalizeCode p.code ≠ "")
    (h : lookupRoom st (normalizeCode p.code) = some room)
    (hlen : 2 ≤ room.sockets.length) :
    handleJoin sid p now st = (st, [Emit.roomFull sid (normalizeCode p.code)]) := by
  unfold handleJoin
  rw [if_neg hc, h]
  simp [hlen]

theorem handleJoin_guest_none_spec (sid : SocketId) (p : JoinRoomPayload) (now : Nat)
    (st : BrokerState)
    (hc : normalizeCode p.code ≠ "")
    (h : lookupRoom st (normalizeCode p.code) = none)
    (hrole : p.role ≠ some "creator") :
    handleJoin sid p now st = (st, [Emit.roomNotFound sid (normalizeCode p.code)]) := by
  unfold handleJoin
  rw [if_neg hc, h]
  have : (p.role == some "creator") = false := by
    simp [hrole]
  simp [this]

theorem handleJoin_existing_spec (sid : SocketId) (p : JoinRoomPayload) (now : Nat)
    (st : BrokerState) (state : RoomState)
    (hc : normalizeCode p.code ≠ "")
    (h : lookupRoom st (normalizeCode p.code) = some state)
    (hlen : state.sockets.length < 2) :
    handleJoin sid p now st =
      ({ rooms := setRoomL st.rooms
           { state with sockets := addSocket state.sockets sid, timer := st.nextTimerId },
         timers := st.timers.filter (fun t => t.id ≠ state.timer) ++
           [⟨st.nextTimerId, normalizeCode p.code, now + ROOM_TTL_MS, true⟩],
         nextTimerId := st.nextTimerId + 1 },
       Emit.roomJoined sid (normalizeCode p.code) ::
         ((addSocket state.sockets sid).filter (fun m => m ≠ sid)).map
           (fun m => Emit.peerJoined m sid (normalizeCode p.code))) := by
  have hcode : state.code = normalizeCode p.code := (lookupRoomL_code _ _ _ h).1
  unfold handleJoin
  rw [if_neg hc, h]
  dsimp only
  rw [if_neg (by omega : ¬2 ≤ state.sockets.length)]
  simp only [joinRoomTail]
  have hself : lookupRoom (setRoom st { state with sockets := addSocket state.sockets sid })
      (normalizeCode p.code) = some { state with sockets := addSocket state.sockets sid } := by
    have := lookupRoomL_setRoomL_self st.rooms
      { state with sockets := addSocket state.sockets sid }
    simpa [lookupRoom, setRoom, hcode] using this
  rw [scheduleRoomExpiry_spec _ _ now _ hself]
  simp only [setRoom]
  rw [setRoomL_setRoomL st.rooms _ _ (by simp)]

theorem handleJoin_create_spec (sid : SocketId) (p : JoinRoomPayload) (now : Nat)
    (st : BrokerState)
    (hc : normalizeCode p.code ≠ "")
    (h : lookupRoom st (normalizeCode p.code) = none)
    (hrole : p.role = some "creator") :
    handleJoin sid p now st =
      ({ rooms := st.rooms ++
           [⟨normalizeCode p.code, [sid], st.nextTimerId + 1⟩],
         timers := st.timers.filter (fun t => t.id ≠ st.nextTimerId) ++
           [⟨st.nextTimerId + 1, normalizeCode p.code, now + ROOM_TTL_MS, true⟩],
         nextTimerId := st.nextTimerId + 2 },
       [Emit.roomJoined sid (normalizeCode p.code)]) := by
  have habsent : ∀ r ∈ st.rooms, r.code ≠ normalizeCode p.code :=
    lookupRoomL_eq_none st.rooms _ h
  unfold handleJoin
  rw [if_neg hc, h]
  dsimp only
  have hrole1 : (p.role == some "creator") = true := by
    simp [hrole]
  rw [hrole1]
  rw [if_pos rfl]
  rw [if_neg (by simp : ¬("creator" : String) = "guest")]
  simp only [joinRoomTail, setTimeoutB, setRoom]
  have hstate1 : lookupRoom
      { rooms := setRoomL
          (setRoomL st.rooms (RoomState.mk (normalizeCode p.code) [] st.nextTimerId))
          (RoomState.mk (normalizeCode p.code) (addSocket [] sid) st.nextTimerId),
        timers := st.timers ++
          [TimerRec.mk st.nextTimerId (normalizeCode p.code) (now + ROOM_TTL_MS) false],
        nextTimerId := st.nextTimerId + 1 } (normalizeCode p.code) =
      some (RoomState.mk (normalizeCode p.code) (addSocket [] sid) st.nextTimerId) := by
    have := lookupRoomL_setRoomL_self
      (setRoomL st.rooms (RoomState.mk (normalizeCode p.code) [] st.nextTimerId))
      (RoomState.mk (normalizeCode p.code) (addSocket [] sid) st.nextTimerId)
    simpa [lookupRoom] using this
  rw [scheduleRoomExpiry_spec _ _ now _ hstate1]
  rw [setRoomL_setRoomL _ _ _ (by simp), setRoomL_setRoomL _ _ _ (by simp),
    setRoomL_of_absent st.rooms _ (by simpa using habsent)]
  simp [addSocket, List.filter_append]


theorem brokerInit_inv : BrokerInv brokerInit := by
  constructor <;> simp [brokerInit]

theorem room_eq_of_code (st : BrokerState) (inv : BrokerInv st)
    (r1 r2 : RoomState) (h1 : r1 ∈ st.rooms) (h2 : r2 ∈ st.rooms)
    (hc : r1.code = r2.code) : r1 = r2 :=
  List.inj_on_of_nodup_map inv.roomCodes h1 h2 hc

theorem timer_eq_of_id (st : BrokerState) (inv : BrokerInv st)
    (t1 t2 : TimerRec) (h1 : t1 ∈ st.timers) (h2 : t2 ∈ st.timers)
    (hi : t1.id = t2.id) : t1 = t2 :=
  List.inj_on_of_nodup_map inv.timerIds h1 h2 hi

/-- Each room's `timer` field names an armed timeout for its own code. -/
theorem room_timer_rec (st : BrokerState) (inv : BrokerInv st)
    (r : RoomState) (hr : r ∈ st.rooms) :
    ∃ t ∈ st.timers, t.code = r.code ∧ t.id = r.timer := by
  rcases inv.hasTimer r hr with ⟨t, ht, hcode⟩
  rcases inv.owner t ht with ⟨r2, hr2, hc2, hid2⟩
  have : r2 = r := room_eq_of_code st inv r2 r hr2 hr (hc2.trans hcode)
  exact ⟨t, ht, hcode, (this ▸ hid2 : r.timer = t.id).symm⟩

/-- An armed timeout whose id is a room's `timer` field has that room's
code. -/
theorem timer_of_room_timer (st : BrokerState) (inv : BrokerInv st)
    (r : RoomState) (hr : r ∈ st.rooms) (t : TimerRec) (ht : t ∈ st.timers)
    (hid : t.id = r.timer) : t.code = r.code := by
  rcases room_timer_rec st inv r hr with ⟨t2, ht2, hc2, hid2⟩
  have ht12 : t = t2 := timer_eq_of_id st inv t t2 ht ht2 (hid.trans hid2.symm)
  rw [ht12]
  exact hc2

/-- Two armed timeouts with the same code coincide. -/
theorem timer_eq_of_code (st : BrokerState) (inv : BrokerInv st)
    (t1 t2 : TimerRec) (h1 : t1 ∈ st.timers) (h2 : t2 ∈ st.timers)
    (hc : t1.code = t2.code) : t1 = t2 := by
  rcases inv.owner t1 h1 with ⟨r1, hr1, hc1, hid1⟩
  rcases inv.owner t2 h2 with ⟨r2, hr2, hc2, hid2⟩
  have hr : r1 = r2 := room_eq_of_code st inv r1 r2 hr1 hr2 (by rw [hc1, hc2, hc])
  exact timer_eq_of_id st inv t1 t2 h1 h2 (by rw [← hid1, ← hid2, hr])

end Pinq

namespace Pinq

theorem mem_setRoomL_self (rooms : List RoomState) (room : RoomState) :
    room ∈ setRoomL rooms room := by
  induction rooms with
  | nil => simp [setRoomL]
  | cons x xs ih =>
    by_cases hx : x.code = room.code
    · simp [setRoomL, hx]
    · simp only [setRoomL, if_neg hx, List.mem_cons]
      exact Or.inr ih

theorem mem_setRoomL_of_ne (rooms : List RoomState) (room r : RoomState)
    (hr : r ∈ rooms) (hne : r.code ≠ room.code) : r ∈ setRoomL rooms room := by
  induction rooms with
  | nil => simp at hr
  | cons x xs ih =>
    rcases List.mem_cons.mp hr with h | h
    · subst h
      simp [setRoomL, hne]
    · by_cases hx : x.code = room.code
      · simp only [setRoomL, if_pos hx, List.mem_cons]
        exact Or.inr h
      · simp only [setRoomL, if_neg hx, List.mem_cons]
        exact Or.inr (ih h)

theorem mem_setRoomL_nodup (rooms : List RoomState) (room r : RoomState)
    (hnd : (rooms.map (fun x => x.code)).Nodup)
    (hmem : r ∈ setRoomL rooms room) : r = room ∨ (r ∈ rooms ∧ r.code ≠ room.code) := by
  induction rooms with
  | nil => simpa [setRoomL] using hmem
  | cons x xs ih =>
    simp only [List.map_cons, List.nodup_cons, List.mem_map] at hnd
    by_cases hx : x.code = room.code
    · simp only [setRoomL, if_pos hx, List.mem_cons] at hmem
      rcases hmem with h | h
      · exact Or.inl h
      · refine Or.inr ⟨List.mem_cons_of_mem _ h, fun hcc => ?_⟩
        exact hnd.1 ⟨r, h, by rw [hcc, hx]⟩
    · simp only [setRoomL, if_neg hx, List.mem_cons] at hmem
      rcases hmem with h | h
      · exact Or.inr ⟨h ▸ List.mem_cons_self x xs, h ▸ hx⟩
      · rcases ih hnd.2 h with h1 | ⟨h1, h2⟩
        · exact Or.inl h1
        · exact Or.inr ⟨List.mem_cons_of_mem _ h1, h2⟩

theorem lookupRoomL_of_mem_nodup (rooms : List RoomState) (r : RoomState)
    (hnd : (rooms.map (fun x => x.code)).Nodup) (hr : r ∈ rooms) :
    lookupRoomL rooms r.code = some r := by
  induction rooms with
  | nil => simp at hr
  | cons x xs ih =>
    simp only [List.map_cons, List.nodup_cons, List.mem_map] at hnd
    rcases List.mem_cons.mp hr with h | h
    · subst h
      simp [lookupRoomL]
    · have hx : x.code ≠ r.code := fun hc => hnd.1 ⟨r, h, hc.symm⟩
      simp only [lookupRoomL, if_neg hx]
      exact ih hnd.2 h

theorem mem_addSocket (sockets : List SocketId) (sid m : SocketId)
    (h : m ∈ addSocket sockets sid) : m ∈ sockets ∨ m = sid := by
  unfold addSocket at h
  by_cases hmem : sid ∈ sockets
  · rw [if_pos hmem] at h
    exact Or.inl h
  · rw [if_neg hmem] at h
    rcases List.mem_append.mp h with h1 | h1
    · exact Or.inl h1
    · exact Or.inr (List.mem_singleton.mp h1)

theorem addSocket_nodup (sockets : List SocketId) (sid : SocketId)
    (h : sockets.Nodup) : (addSocket sockets sid).Nodup := by
  unfold addSocket
  by_cases hmem : sid ∈ sockets
  · rwa [if_pos hmem]
  · rw [if_neg hmem]
    simp [List.nodup_append, h, hmem]

theorem addSocket_length_le (sockets : List SocketId) (sid : SocketId) :
    (addSocket sockets sid).length ≤ sockets.length + 1 := by
  unfold addSocket
  by_cases hmem : sid ∈ sockets
  · rw [if_pos hmem]
    omega
  · rw [if_neg hmem]
    simp

/-- Invariant preservation for the common "renew the TTL of an existing
room" outcome shared by successful joins, signal relays, and disconnects
with a surviving member. -/
theorem inv_renewalState (st : BrokerState) (inv : BrokerInv st)
    (r0 : RoomState) (h0 : r0 ∈ st.rooms) (newSockets : List SocketId)
    (hnd : newSockets.Nodup) (hle : newSockets.length ≤ 2) (d : Nat) :
    BrokerInv
      { rooms := setRoomL st.rooms { r0 with sockets := newSockets, timer := st.nextTimerId },
        timers := st.timers.filter (fun t => t.id ≠ r0.timer) ++
          [⟨st.nextTimerId, r0.code, d, true⟩],
        nextTimerId := st.nextTimerId + 1 } := by
  have hfilter_sub : ∀ t ∈ st.timers.filter (fun t => t.id ≠ r0.timer), t ∈ st.timers :=
    fun t ht => (List.mem_filter.mp ht).1
  have hfilter_ne : ∀ t ∈ st.timers.filter (fun t => t.id ≠ r0.timer), t.id ≠ r0.timer := by
    intro t ht
    have := (List.mem_filter.mp ht).2
    simpa using this
  constructor
  · -- room codes stay nodup: the updated room keeps its code
    have := setRoomL_codes st.rooms { r0 with sockets := newSockets, timer := st.nextTimerId }
    simp only at this
    rw [this, if_pos (List.mem_map_of_mem _ h0)]
    exact inv.roomCodes
  · intro r hr
    rcases mem_setRoomL st.rooms _ r hr with h | h
    · subst h
      exact hnd
    · exact inv.sockNodup r h
  · intro r hr
    rcases mem_setRoomL st.rooms _ r hr with h | h
    · subst h
      exact hle
    · exact inv.sockLe2 r h
  · -- timer ids stay nodup: the fresh one is above every armed id
    simp only [List.map_append, List.map_cons, List.map_nil]
    rw [List.nodup_append]
    refine ⟨(inv.timerIds).sublist (List.Sublist.map _ (List.filter_sublist _)), by simp, ?_⟩
    intro i hi
    rcases List.mem_map.mp hi with ⟨t, ht, hid⟩
    have := inv.fresh t (hfilter_sub t ht)
    simp only [List.mem_singleton]
    omega
  · intro t ht
    dsimp only
    rcases List.mem_append.mp ht with h | h
    · have := inv.fresh t (hfilter_sub t h)
      omega
    · have := List.mem_singleton.mp h
      subst this
      dsimp only
      omega
  · intro t ht
    rcases List.mem_append.mp ht with h | h
    · exact inv.bcast t (hfilter_sub t h)
    · have := List.mem_singleton.mp h
      subst this
      rfl
  · intro t ht
    rcases List.mem_append.mp ht with h | h
    · rcases inv.owner t (hfilter_sub t h) with ⟨r, hr, hc, hid⟩
      have hrne : r.code ≠ r0.code := by
        intro hcc
        have hrr : r = r0 := room_eq_of_code st inv r r0 hr h0 hcc
        exact hfilter_ne t h (by rw [← hid, hrr])
      refine ⟨r, mem_setRoomL_of_ne st.rooms _ r hr (by simpa using hrne), hc, hid⟩
    · have := List.mem_singleton.mp h
      subst this
      exact ⟨{ r0 with sockets := newSockets, timer := st.nextTimerId },
        mem_setRoomL_self st.rooms _, rfl, rfl⟩
  · intro r hr
    rcases mem_setRoomL_nodup st.rooms _ r inv.roomCodes hr with h | ⟨h, hne⟩
    · subst h
      exact ⟨⟨st.nextTimerId, r0.code, d, true⟩, List.mem_append_right _ (by simp), rfl⟩
    · rcases inv.hasTimer r h with ⟨t, ht, hc⟩
      refine ⟨t, List.mem_append_left _ (List.mem_filter.mpr ⟨ht, ?_⟩), hc⟩
      simp only [decide_eq_true_eq]
      intro hid
      have : t.code = r0.code := timer_of_room_timer st inv r0 h0 t ht hid
      exact hne (by simpa using (hc ▸ this : r.code = r0.code))

end Pinq

namespace Pinq

/-- Invariant preservation for room creation by a `creator` join. -/
theorem inv_createState (st : BrokerState) (inv : BrokerInv st) (c : String)
    (habsent : ∀ r ∈ st.rooms, r.code ≠ c) (sid : SocketId) (d : Nat) :
    BrokerInv
      { rooms := st.rooms ++ [⟨c, [sid], st.nextTimerId + 1⟩],
        timers := st.timers.filter (fun t => t.id ≠ st.nextTimerId) ++
          [⟨st.nextTimerId + 1, c, d, true⟩],
        nextTimerId := st.nextTimerId + 2 } := by
  have hfe : st.timers.filter (fun t => t.id ≠ st.nextTimerId) = st.timers := by
    apply List.filter_eq_self.mpr
    intro t ht
    have := inv.fresh t ht
    simp only [decide_eq_true_eq]
    omega
  rw [hfe]
  constructor
  · simp only [List.map_append, List.map_cons, List.map_nil]
    rw [List.nodup_append]
    refine ⟨inv.roomCodes, by simp, ?_⟩
    intro cc hcc
    rcases List.mem_map.mp hcc with ⟨r, hr, hrc⟩
    simp only [List.mem_singleton]
    intro hceq
    exact habsent r hr (by rw [hrc, hceq])
  · intro r hr
    rcases List.mem_append.mp hr with h | h
    · exact inv.sockNodup r h
    · rw [List.mem_singleton.mp h]
      simp
  · intro r hr
    rcases List.mem_append.mp hr with h | h
    · exact inv.sockLe2 r h
    · rw [List.mem_singleton.mp h]
      simp
  · simp only [List.map_append, List.map_cons, List.map_nil]
    rw [List.nodup_append]
    refine ⟨inv.timerIds, by simp, ?_⟩
    intro i hi
    rcases List.mem_map.mp hi with ⟨t, ht, hid⟩
    have := inv.fresh t ht
    simp only [List.mem_singleton]
    omega
  · intro t ht
    dsimp only
    rcases List.mem_append.mp ht with h | h
    · have := inv.fresh t h
      omega
    · rw [List.mem_singleton.mp h]
      dsimp only
      omega
  · intro t ht
    rcases List.mem_append.mp ht with h | h
    · exact inv.bcast t h
    · rw [List.mem_singleton.mp h]
  · intro t ht
    rcases List.mem_append.mp ht with h | h
    · rcases inv.owner t h with ⟨r, hr, hc1, hc2⟩
      exact ⟨r, List.mem_append_left _ hr, hc1, hc2⟩
    · rw [List.mem_singleton.mp h]
      exact ⟨⟨c, [sid], st.nextTimerId + 1⟩, List.mem_append_right _ (by simp), rfl, rfl⟩
  · intro r hr
    rcases List.mem_append.mp hr with h | h
    · rcases inv.hasTimer r h with ⟨t, ht, hc1⟩
      exact ⟨t, List.mem_append_left _ ht, hc1⟩
    · rw [List.mem_singleton.mp h]
      exact ⟨⟨st.nextTimerId + 1, c, d, true⟩, List.mem_append_right _ (by simp), rfl⟩

/-- Invariant preservation for `handleJoin`. -/
theorem inv_handleJoin (sid : SocketId) (p : JoinRoomPayload) (now : Nat)
    (st : BrokerState) (inv : BrokerInv st) :
    BrokerInv (handleJoin sid p now st).1 := by
  by_cases hc : normalizeCode p.code = ""
  · unfold handleJoin
    rw [if_pos hc]
    exact inv
  · cases hlook : lookupRoom st (normalizeCode p.code) with
    | some state =>
      by_cases hfull : 2 ≤ state.sockets.length
      · rw [handleJoin_full_spec sid p now st state hc hlook hfull]
        exact inv
      · have hmem : state ∈ st.rooms := (lookupRoomL_code _ _ _ hlook).2
        have hcode : state.code = normalizeCode p.code := (lookupRoomL_code _ _ _ hlook).1
        rw [handleJoin_existing_spec sid p now st state hc hlook (by omega)]
        have := inv_renewalState st inv state hmem (addSocket state.sockets sid)
          (addSocket_nodup _ _ (inv.sockNodup state hmem))
          (by
            have h1 := addSocket_length_le state.sockets sid
            have h2 : state.sockets.length ≤ 1 := by omega
            omega)
          (now + ROOM_TTL_MS)
        rw [← hcode]
        exact this
    | none =>
      by_cases hrole : p.role = some "creator"
      · rw [handleJoin_create_spec sid p now st hc hlook hrole]
        exact inv_createState st inv (normalizeCode p.code)
          (lookupRoomL_eq_none st.rooms _ hlook) sid (now + ROOM_TTL_MS)
      · rw [handleJoin_guest_none_spec sid p now st hc hlook hrole]
        exact inv

/-- Invariant preservation for `handleSignal`. -/
theorem inv_handleSignal (sid : SocketId) (p : SignalPayload) (now : Nat)
    (st : BrokerState) (inv : BrokerInv st) :
    BrokerInv (handleSignal sid p now st).1 := by
  by_cases hc : normalizeCode p.code = ""
  · unfold handleSignal
    rw [if_pos hc]
    exact inv
  · cases hlook : lookupRoom st (normalizeCode p.code) with
    | some room =>
      have hmem : room ∈ st.rooms := (lookupRoomL_code _ _ _ hlook).2
      have hcode : room.code = normalizeCode p.code := (lookupRoomL_code _ _ _ hlook).1
      rw [handleSignal_exists_spec sid p now st room hc hlook]
      have := inv_renewalState st inv room hmem room.sockets
        (inv.sockNodup room hmem) (inv.sockLe2 room hmem) (now + ROOM_TTL_MS)
      rw [← hcode]
      exact this
    | none =>
      rw [handleSignal_none_spec sid p now st hlook]
      exact inv

end Pinq

namespace Pinq

theorem clearRoom_spec (st : BrokerState) (code : String) (room : RoomState)
    (h : lookupRoom st code = some room) :
    clearRoom st code =
      { rooms := st.rooms.filter (fun r => r.code ≠ code),
        timers := st.timers.filter (fun t => t.id ≠ room.timer),
        nextTimerId := st.nextTimerId } := by
  unfold clearRoom
  rw [h]
  rfl

theorem clearRoom_none (st : BrokerState) (code : String)
    (h : lookupRoom st code = none) : clearRoom st code = st := by
  unfold clearRoom
  rw [h]

theorem setRoomL_filter_ne (rooms : List RoomState) (room : RoomState) :
    (setRoomL rooms room).filter (fun r => r.code ≠ room.code) =
      rooms.filter (fun r => r.code ≠ room.code) := by
  induction rooms with
  | nil => simp [setRoomL]
  | cons x xs ih =>
    simp only [ne_eq, decide_not] at ih ⊢
    by_cases hx : x.code = room.code
    · simp [setRoomL, hx, List.filter_cons]
    · simp [setRoomL, hx, List.filter_cons, ih]

/-- Invariant preservation for deleting a room together with its timer
(`clearRoom` after the last member left, or TTL teardown). -/
theorem inv_removeRoom (st : BrokerState) (inv : BrokerInv st)
    (r0 : RoomState) (h0 : r0 ∈ st.rooms) :
    BrokerInv
      { rooms := st.rooms.filter (fun r => r.code ≠ r0.code),
        timers := st.timers.filter (fun t => t.id ≠ r0.timer),
        nextTimerId := st.nextTimerId } := by
  have hroomsub : ∀ r ∈ st.rooms.filter (fun r => r.code ≠ r0.code),
      r ∈ st.rooms ∧ r.code ≠ r0.code := by
    intro r hr
    have := List.mem_filter.mp hr
    simpa using this
  have htsub : ∀ t ∈ st.timers.filter (fun t => t.id ≠ r0.timer),
      t ∈ st.timers ∧ t.id ≠ r0.timer := by
    intro t ht
    have := List.mem_filter.mp ht
    simpa using this
  constructor
  · exact inv.roomCodes.sublist (List.Sublist.map _ (List.filter_sublist _))
  · intro r hr
    exact inv.sockNodup r (hroomsub r hr).1
  · intro r hr
    exact inv.sockLe2 r (hroomsub r hr).1
  · exact inv.timerIds.sublist (List.Sublist.map _ (List.filter_sublist _))
  · intro t ht
    exact inv.fresh t (htsub t ht).1
  · intro t ht
    exact inv.bcast t (htsub t ht).1
  · intro t ht
    rcases htsub t ht with ⟨ht1, ht2⟩
    rcases inv.owner t ht1 with ⟨r, hr, hc, hid⟩
    have hrne : r.code ≠ r0.code := by
      intro hcc
      have hrr : r = r0 := room_eq_of_code st inv r r0 hr h0 hcc
      exact ht2 (by rw [← hid, hrr])
    exact ⟨r, List.mem_filter.mpr ⟨hr, by simpa using hrne⟩, hc, hid⟩
  · intro r hr
    rcases hroomsub r hr with ⟨hr1, hr2⟩
    rcases inv.hasTimer r hr1 with ⟨t, ht, hc⟩
    refine ⟨t, List.mem_filter.mpr ⟨ht, ?_⟩, hc⟩
    simp only [decide_eq_true_eq]
    intro hid
    have : t.code = r0.code := timer_of_room_timer st inv r0 h0 t ht hid
    exact hr2 (by rw [← hc, this])

/-- Invariant preservation for one iteration of the disconnect loop. -/
theorem inv_disconnectStep (sid : SocketId) (now : Nat)
    (acc : BrokerState × List Emit) (code : String)
    (inv : BrokerInv acc.1) : BrokerInv (disconnectStep sid now acc code).1 := by
  rcases acc with ⟨st, es⟩
  unfold disconnectStep
  dsimp only
  cases hlook : lookupRoom st code with
  | none => exact inv
  | some state =>
    show BrokerInv
      (if sid ∈ state.sockets then
        let state1 := { state with sockets := state.sockets.filter (fun m => m ≠ sid) }
        let st1 := setRoom st state1
        let newEmits := state1.sockets.map (fun m => Emit.peerDisconnected m sid code)
        if state1.sockets.length = 0 then (clearRoom st1 code, es ++ newEmits)
        else (scheduleRoomExpiry st1 code now, es ++ newEmits)
      else (st, es)).1
    have hmem : state ∈ st.rooms := (lookupRoomL_code _ _ _ hlook).2
    have hcode : state.code = code := (lookupRoomL_code _ _ _ hlook).1
    by_cases hsid : sid ∈ state.sockets
    · rw [if_pos hsid]
      dsimp only
      have hself : lookupRoom
          (setRoom st { state with sockets := state.sockets.filter (fun m => m ≠ sid) })
          code = some { state with sockets := state.sockets.filter (fun m => m ≠ sid) } := by
        have := lookupRoomL_setRoomL_self st.rooms
          { state with sockets := state.sockets.filter (fun m => m ≠ sid) }
        simpa [lookupRoom, setRoom, hcode] using this
      by_cases hzero : (state.sockets.filter (fun m => m ≠ sid)).length = 0
      · rw [if_pos hzero]
        rw [clearRoom_spec _ _ _ hself]
        simp only [setRoom]
        have heq : (setRoomL st.rooms
            { state with sockets := state.sockets.filter (fun m => m ≠ sid) }).filter
            (fun r => r.code ≠ code) = st.rooms.filter (fun r => r.code ≠ code) := by
          have := setRoomL_filter_ne st.rooms
            { state with sockets := state.sockets.filter (fun m => m ≠ sid) }
          simpa [hcode] using this
        rw [heq, ← hcode]
        exact inv_removeRoom st inv state hmem
      · rw [if_neg hzero]
        rw [scheduleRoomExpiry_spec _ _ now _ hself]
        simp only [setRoom]
        rw [setRoomL_setRoomL st.rooms _ _ (by simp)]
        have := inv_renewalState st inv state hmem
          (state.sockets.filter (fun m => m ≠ sid))
          ((inv.sockNodup state hmem).filter _)
          (le_trans (List.length_filter_le _ _) (inv.sockLe2 state hmem))
          (now + ROOM_TTL_MS)
        rw [← hcode]
        exact this
    · rw [if_neg hsid]
      exact inv

theorem fireTimer_none (tid : Nat) (st : BrokerState)
    (h : findTimer st.timers tid = none) : fireTimer tid st = (st, []) := by
  unfold fireTimer
  rw [h]

/-- An armed expiry timeout fires: the room is looked up, `room-expired`
is broadcast to its members, and the room is torn down. -/
theorem fireTimer_some_spec (tid : Nat) (st : BrokerState) (t : TimerRec)
    (room : RoomState) (hfind : findTimer st.timers tid = some t)
    (hb : t.expiryBroadcast = true)
    (hlook : lookupRoomL st.rooms t.code = some room) :
    fireTimer tid st =
      ({ rooms := st.rooms.filter (fun r => r.code ≠ t.code),
         timers := (st.timers.filter (fun u => u.id ≠ tid)).filter
           (fun u => u.id ≠ room.timer),
         nextTimerId := st.nextTimerId },
       room.sockets.map (fun m => Emit.roomExpired m t.code)) := by
  unfold fireTimer
  simp only [hfind]
  rw [hb, if_pos rfl]
  have hlookup1 : lookupRoom
      { st with timers := st.timers.filter (fun u => u.id ≠ tid) } t.code = some room := by
    simpa [lookupRoom] using hlook
  simp only [hlookup1]
  rw [clearRoom_spec _ _ _ hlookup1]

/-- Invariant preservation for a timer firing. -/
theorem inv_fireTimer (tid : Nat) (st : BrokerState) (inv : BrokerInv st) :
    BrokerInv (fireTimer tid st).1 := by
  cases hfind : findTimer st.timers tid with
  | none =>
    rw [fireTimer_none tid st hfind]
    exact inv
  | some t =>
    rcases findTimer_mem st.timers tid t hfind with ⟨hmem, hid⟩
    rcases inv.owner t hmem with ⟨r, hr, hrc, hrt⟩
    have hlookup : lookupRoomL st.rooms t.code = some r := by
      have := lookupRoomL_of_mem_nodup st.rooms r inv.roomCodes hr
      rwa [hrc] at this
    rw [fireTimer_some_spec tid st t r hfind (inv.bcast t hmem) hlookup]
    have hfilters : (st.timers.filter (fun u => u.id ≠ tid)).filter
        (fun u => u.id ≠ r.timer) = st.timers.filter (fun u => u.id ≠ r.timer) := by
      rw [hrt, hid, List.filter_filter]
      simp
    simp only [hfilters]
    rw [← hrc]
    exact inv_removeRoom st inv r hr

/-- Invariant preservation for `handleDisconnect`. -/
theorem inv_handleDisconnect (sid : SocketId) (now : Nat) (st : BrokerState)
    (inv : BrokerInv st) : BrokerInv (handleDisconnect sid now st).1 := by
  unfold handleDisconnect
  generalize st.rooms.map (fun r => r.code) = codes
  suffices h : ∀ (codes : List String) (acc : BrokerState × List Emit),
      BrokerInv acc.1 → BrokerInv (codes.foldl (disconnectStep sid now) acc).1 by
    exact h codes (st, []) inv
  intro codes
  induction codes with
  | nil => intro acc hacc; exact hacc
  | cons c cs ih =>
    intro acc hacc
    exact ih _ (inv_disconnectStep sid now acc c hacc)

/-- Every reachable broker state satisfies the invariant. -/
theorem reachable_inv (st : BrokerState) (h : Reachable st) : BrokerInv st := by
  induction h with
  | init => exact brokerInit_inv
  | join sid payload now hst ih => exact inv_handleJoin sid payload now _ ih
  | signal sid payload now hst ih => exact inv_handleSignal sid payload now _ ih
  | disconnect sid now hst ih => exact inv_handleDisconnect sid now _ ih
  | fire tid hst ih => exact inv_fireTimer tid _ ih

end Pinq

namespace Pinq

theorem lookupRoomL_filter_code_ne (rooms : List RoomState) (c bad : String)
    (hne : c ≠ bad) :
    lookupRoomL (rooms.filter (fun r => r.code ≠ bad)) c = lookupRoomL rooms c := by
  induction rooms with
  | nil => simp
  | cons x xs ih =>
    by_cases hx : x.code = bad
    · have hxc : x.code ≠ c := fun h2 => hne (h2 ▸ hx)
      have hp : (decide (x.code ≠ bad)) = false := by simp [hx]
      rw [List.filter_cons, hp]
      conv_rhs => rw [lookupRoomL]
      rw [if_neg hxc]
      exact ih
    · have hp : (decide (x.code ≠ bad)) = true := by simp [hx]
      rw [List.filter_cons, hp, if_pos rfl]
      rw [lookupRoomL]
      conv_rhs => rw [lookupRoomL]
      by_cases hxc : x.code = c
      · rw [if_pos hxc, if_pos hxc]
      · rw [if_neg hxc, if_neg hxc]
        exact ih

theorem filter_code_of_no_id (timers : List TimerRec) (x : Nat) (c : String)
    (h : ∀ t ∈ timers, t.code = c → t.id ≠ x) :
    (timers.filter (fun t => t.id ≠ x)).filter (fun t => t.code = c) =
      timers.filter (fun t => t.code = c) := by
  rw [List.filter_filter]
  apply List.filter_congr
  intro a ha
  by_cases hc : a.code = c
  · have := h a ha hc
    simp [hc, this]
  · simp [hc]

theorem filter_code_of_only_id (timers : List TimerRec) (x : Nat) (c : String)
    (h : ∀ t ∈ timers, t.code = c → t.id = x) :
    (timers.filter (fun t => t.id ≠ x)).filter (fun t => t.code = c) = [] := by
  rw [List.filter_filter]
  apply List.filter_eq_nil_iff.mpr
  intro a ha
  by_cases hc : a.code = c
  · have := h a ha hc
    simp [hc, this]
  · simp [hc]

/-- In an invariant state, every armed timeout for a room's code carries
the id the room's `timer` field names. -/
theorem timersFor_only_id (st : BrokerState) (inv : BrokerInv st)
    (room : RoomState) (hr : room ∈ st.rooms) :
    ∀ t ∈ st.timers, t.code = room.code → t.id = room.timer := by
  intro t ht hc
  rcases room_timer_rec st inv room hr with ⟨t2, ht2, hc2, hid2⟩
  have : t = t2 := timer_eq_of_code st inv t t2 ht ht2 (by rw [hc, hc2])
  rw [this, hid2]

/-- The TTL renewal performed by one iteration of the disconnect loop when
a member remains. -/
theorem disconnectStep_renewal_spec (sid : SocketId) (now : Nat)
    (st : BrokerState) (es : List Emit) (code : String) (state : RoomState)
    (h : lookupRoom st code = some state) (hsid : sid ∈ state.sockets)
    (hsurv : (state.sockets.filter (fun m => m ≠ sid)).length ≠ 0) :
    disconnectStep sid now (st, es) code =
      ({ rooms := setRoomL st.rooms
           { state with
             sockets := state.sockets.filter (fun m => m ≠ sid),
             timer := st.nextTimerId },
         timers := st.timers.filter (fun t => t.id ≠ state.timer) ++
           [⟨st.nextTimerId, code, now + ROOM_TTL_MS, true⟩],
         nextTimerId := st.nextTimerId + 1 },
       es ++ (state.sockets.filter (fun m => m ≠ sid)).map
         (fun m => Emit.peerDisconnected m sid code)) := by
  have hcode : state.code = code := (lookupRoomL_code _ _ _ h).1
  unfold disconnectStep
  dsimp only
  rw [h]
  show (if sid ∈ state.sockets then
      let state1 := { state with sockets := state.sockets.filter (fun m => m ≠ sid) }
      let st1 := setRoom st state1
      let newEmits := state1.sockets.map (fun m => Emit.peerDisconnected m sid code)
      if state1.sockets.length = 0 then (clearRoom st1 code, es ++ newEmits)
      else (scheduleRoomExpiry st1 code now, es ++ newEmits)
    else (st, es)) = _
  rw [if_pos hsid]
  dsimp only
  rw [if_neg hsurv]
  have hself : lookupRoom
      (setRoom st { state with sockets := state.sockets.filter (fun m => m ≠ sid) })
      code = some { state with sockets := state.sockets.filter (fun m => m ≠ sid) } := by
    have := lookupRoomL_setRoomL_self st.rooms
      { state with sockets := state.sockets.filter (fun m => m ≠ sid) }
    simpa [lookupRoom, setRoom, hcode] using this
  rw [scheduleRoomExpiry_spec _ _ now _ hself]
  simp only [setRoom]
  rw [setRoomL_setRoomL st.rooms _ _ (by simp)]

/-- The teardown performed by one iteration of the disconnect loop when
the last member leaves. -/
theorem disconnectStep_clear_spec (sid : SocketId) (now : Nat)
    (st : BrokerState) (es : List Emit) (code : String) (state : RoomState)
    (h : lookupRoom st code = some state) (hsid : sid ∈ state.sockets)
    (hzero : (state.sockets.filter (fun m => m ≠ sid)).length = 0) :
    disconnectStep sid now (st, es) code =
      ({ rooms := st.rooms.filter (fun r => r.code ≠ code),
         timers := st.timers.filter (fun t => t.id ≠ state.timer),
         nextTimerId := st.nextTimerId },
       es ++ (state.sockets.filter (fun m => m ≠ sid)).map
         (fun m => Emit.peerDisconnected m sid code)) := by
  have hcode : state.code = code := (lookupRoomL_code _ _ _ h).1
  unfold disconnectStep
  dsimp only
  rw [h]
  show (if sid ∈ state.sockets then
      let state1 := { state with sockets := state.sockets.filter (fun m => m ≠ sid) }
      let st1 := setRoom st state1
      let newEmits := state1.sockets.map (fun m => Emit.peerDisconnected m sid code)
      if state1.sockets.length = 0 then (clearRoom st1 code, es ++ newEmits)
      else (scheduleRoomExpiry st1 code now, es ++ newEmits)
    else (st, es)) = _
  rw [if_pos hsid]
  dsimp only
  rw [if_pos hzero]
  have hself : lookupRoom
      (setRoom st { state with sockets := state.sockets.filter (fun m => m ≠ sid) })
      code = some { state with sockets := state.sockets.filter (fun m => m ≠ sid) } := by
    have := lookupRoomL_setRoomL_self st.rooms
      { state with sockets := state.sockets.filter (fun m => m ≠ sid) }
    simpa [lookupRoom, setRoom, hcode] using this
  rw [clearRoom_spec _ _ _ hself]
  simp only [setRoom]
  have h2 : (setRoomL st.rooms
        { state with sockets := state.sockets.filter (fun m => m ≠ sid) }).filter
        (fun r => r.code ≠ state.code) =
      st.rooms.filter (fun r => r.code ≠ state.code) :=
    setRoomL_filter_ne st.rooms
      { state with sockets := state.sockets.filter (fun m => m ≠ sid) }
  rw [← hcode, h2]

/-- The no-op performed by one iteration of the disconnect loop when the
socket is not a member (or the room is already gone). -/
theorem disconnectStep_noop_spec (sid : SocketId) (now : Nat)
    (st : BrokerState) (es : List Emit) (code : String)
    (h : ∀ state, lookupRoom st code = some state → sid ∉ state.sockets) :
    disconnectStep sid now (st, es) code = (st, es) := by
  unfold disconnectStep
  dsimp only
  cases hlook : lookupRoom st code with
  | none => rfl
  | some state =>
    show (if sid ∈ state.sockets then
        let state1 := { state with sockets := state.sockets.filter (fun m => m ≠ sid) }
        let st1 := setRoom st state1
        let newEmits := state1.sockets.map (fun m => Emit.peerDisconnected m sid code)
        if state1.sockets.length = 0 then (clearRoom st1 code, es ++ newEmits)
        else (scheduleRoomExpiry st1 code now, es ++ newEmits)
      else (st, es)) = (st, es)
    rw [if_neg (h state hlook)]

end Pinq

namespace Pinq

/-- A disconnect-loop iteration for a different code leaves a room's map
entry and armed timeouts untouched, never reuses an already-retired timer
id, and only grows the id counter. -/
theorem disconnectStep_frame (sid : SocketId) (now : Nat) (st : BrokerState)
    (es : List Emit) (code c : String) (hcc : c ≠ code) (inv : BrokerInv st) :
    lookupRoom (disconnectStep sid now (st, es) code).1 c = lookupRoom st c ∧
    timersFor (disconnectStep sid now (st, es) code).1 c = timersFor st c ∧
    st.nextTimerId ≤ (disconnectStep sid now (st, es) code).1.nextTimerId ∧
    (∀ x, (∀ t ∈ st.timers, t.id ≠ x) → x < st.nextTimerId →
      ∀ t ∈ (disconnectStep sid now (st, es) code).1.timers, t.id ≠ x) := by
  cases hlook : lookupRoom st code with
  | none =>
    rw [disconnectStep_noop_spec sid now st es code
      (fun state hs => absurd (hlook ▸ hs) (by simp))]
    exact ⟨rfl, rfl, le_refl _, fun x hx _ => hx⟩
  | some state =>
    have hmem : state ∈ st.rooms := (lookupRoomL_code _ _ _ hlook).2
    have hcode : state.code = code := (lookupRoomL_code _ _ _ hlook).1
    have honly : ∀ t ∈ st.timers, t.code = c → t.id ≠ state.timer := by
      intro t ht htc hid
      have : t.code = state.code := timer_of_room_timer st inv state hmem t ht hid
      exact hcc (by rw [← htc, this, hcode])
    by_cases hsid : sid ∈ state.sockets
    · by_cases hzero : (state.sockets.filter (fun m => m ≠ sid)).length = 0
      · rw [disconnectStep_clear_spec sid now st es code state hlook hsid hzero]
        refine ⟨?_, ?_, le_refl _, ?_⟩
        · exact lookupRoomL_filter_code_ne st.rooms c code hcc
        · exact filter_code_of_no_id st.timers state.timer c honly
        · intro x hx _ t ht
          exact hx t (List.mem_filter.mp ht).1
      · rw [disconnectStep_renewal_spec sid now st es code state hlook hsid hzero]
        refine ⟨?_, ?_, by dsimp only; omega, ?_⟩
        · apply lookupRoomL_setRoomL_other
          simpa using (hcode ▸ hcc : c ≠ state.code)
        · unfold timersFor
          dsimp only
          rw [List.filter_append]
          have hlast : (List.filter (fun t => decide (t.code = c))
              [TimerRec.mk st.nextTimerId code (now + ROOM_TTL_MS) true]) = [] := by
            simp [Ne.symm hcc]
          rw [hlast, List.append_nil]
          exact filter_code_of_no_id st.timers state.timer c honly
        · intro x hx hlt t ht
          dsimp only at ht
          rcases List.mem_append.mp ht with h1 | h1
          · exact hx t (List.mem_filter.mp h1).1
          · rw [List.mem_singleton.mp h1]
            dsimp only
            omega
    · rw [disconnectStep_noop_spec sid now st es code
        (fun state2 hs2 => by
          rw [hlook] at hs2
          exact (Option.some.injEq _ _ ▸ hs2 : state = state2) ▸ hsid)]
      exact ⟨rfl, rfl, le_refl _, fun x hx _ => hx⟩

/-- Folding the disconnect loop over codes different from `c` preserves
`c`'s room entry, `c`'s armed timeouts, retired-id freshness, and the
invariant. -/
theorem foldl_disconnect_frame (sid : SocketId) (now : Nat) (c : String) :
    ∀ (codes : List String), c ∉ codes →
    ∀ (acc : BrokerState × List Emit), BrokerInv acc.1 →
    BrokerInv ((codes.foldl (disconnectStep sid now) acc).1) ∧
    lookupRoom ((codes.foldl (disconnectStep sid now) acc).1) c = lookupRoom acc.1 c ∧
    timersFor ((codes.foldl (disconnectStep sid now) acc).1) c = timersFor acc.1 c ∧
    acc.1.nextTimerId ≤ ((codes.foldl (disconnectStep sid now) acc).1).nextTimerId ∧
    (∀ x, (∀ t ∈ acc.1.timers, t.id ≠ x) → x < acc.1.nextTimerId →
      ∀ t ∈ ((codes.foldl (disconnectStep sid now) acc).1).timers, t.id ≠ x) := by
  intro codes
  induction codes with
  | nil =>
    intro _ acc hacc
    exact ⟨hacc, rfl, rfl, le_refl _, fun x hx _ => hx⟩
  | cons code cs ih =>
    intro hnotin acc hacc
    have hcc : c ≠ code := fun h => hnotin (h ▸ List.mem_cons_self code cs)
    have hcs : c ∉ cs := fun h => hnotin (List.mem_cons_of_mem _ h)
    rcases acc with ⟨st, es⟩
    simp only [List.foldl_cons]
    rcases disconnectStep_frame sid now st es code c hcc hacc with ⟨hf1, hf2, hf3, hf4⟩
    have hinv1 : BrokerInv (disconnectStep sid now (st, es) code).1 :=
      inv_disconnectStep sid now (st, es) code hacc
    rcases ih hcs (disconnectStep sid now (st, es) code) hinv1 with
      ⟨ha, hb, hc2, hd, he⟩
    refine ⟨ha, by rw [hb, hf1], by rw [hc2, hf2], le_trans hf3 hd, ?_⟩
    intro x hx hlt
    exact he x (hf4 x hx hlt) (lt_of_lt_of_le hlt hf3)

end Pinq

namespace Pinq

/-- When a socket disconnects from a room and a member remains, the
broker cancels the room's pending expiry timeout and arms exactly one
fresh one due a full TTL after the disconnect; the retired timer id is
never armed again. -/
theorem handleDisconnect_renewal (sid : SocketId) (now : Nat) (st : BrokerState)
    (inv : BrokerInv st) (c : String) (room : RoomState)
    (hr : lookupRoom st c = some room) (hsid : sid ∈ room.sockets)
    (hsurv : (room.sockets.filter (fun m => m ≠ sid)).length ≠ 0) :
    (∀ t ∈ (handleDisconnect sid now st).1.timers, t.id ≠ room.timer) ∧
    (∃ n, timersFor (handleDisconnect sid now st).1 c =
      [⟨n, c, now + ROOM_TTL_MS, true⟩]) := by
  have hmem : room ∈ st.rooms := (lookupRoomL_code _ _ _ hr).2
  have hcode : room.code = c := (lookupRoomL_code _ _ _ hr).1
  have hcmem : c ∈ st.rooms.map (fun r => r.code) := by
    exact List.mem_map.mpr ⟨room, hmem, hcode⟩
  rcases List.append_of_mem hcmem with ⟨l1, l2, hsplit⟩
  have hnd : (l1 ++ c :: l2).Nodup := hsplit ▸ inv.roomCodes
  rw [List.nodup_append] at hnd
  rcases hnd with ⟨hnd1, hnd2, hdisj⟩
  have hcl1 : c ∉ l1 := fun h => hdisj h (List.mem_cons_self c l2)
  have hcl2 : c ∉ l2 := (List.nodup_cons.mp hnd2).1
  unfold handleDisconnect
  rw [hsplit, List.foldl_append, List.foldl_cons]
  -- the prefix leaves room `c` and its timer untouched
  have hframe := foldl_disconnect_frame sid now c l1 hcl1 (st, []) inv
  obtain ⟨stA, esA, hAeq⟩ : ∃ stA esA,
      l1.foldl (disconnectStep sid now) (st, []) = (stA, esA) := ⟨_, _, rfl⟩
  rw [hAeq] at hframe ⊢
  dsimp only at hframe
  rcases hframe with ⟨hinvA, hlookA, _, hnextA, _⟩
  have hlookA2 : lookupRoom stA c = some room := by rw [hlookA]; exact hr
  have hmemA : room ∈ stA.rooms := (lookupRoomL_code _ _ _ hlookA2).2
  -- the iteration for `c` renews its timer
  rw [disconnectStep_renewal_spec sid now stA esA c room hlookA2 hsid hsurv]
  have hfreshRoom : room.timer < stA.nextTimerId := by
    rcases room_timer_rec stA hinvA room hmemA with ⟨t, ht, _, hid⟩
    have := hinvA.fresh t ht
    omega
  have honlyA : ∀ t ∈ stA.timers, t.code = c → t.id = room.timer := by
    have := timersFor_only_id stA hinvA room hmemA
    intro t ht htc
    exact this t ht (by rw [htc, hcode])
  -- the suffix leaves the fresh timer untouched and never reuses the old id
  rcases foldl_disconnect_frame sid now c l2 hcl2
    ({ rooms := setRoomL stA.rooms
         { room with
           sockets := room.sockets.filter (fun m => m ≠ sid),
           timer := stA.nextTimerId },
       timers := stA.timers.filter (fun t => t.id ≠ room.timer) ++
         [⟨stA.nextTimerId, c, now + ROOM_TTL_MS, true⟩],
       nextTimerId := stA.nextTimerId + 1 },
     esA ++ (room.sockets.filter (fun m => m ≠ sid)).map
       (fun m => Emit.peerDisconnected m sid c))
    (by
      have := inv_renewalState stA hinvA room hmemA
        (room.sockets.filter (fun m => m ≠ sid))
        ((hinvA.sockNodup room hmemA).filter _)
        (le_trans (List.length_filter_le _ _) (hinvA.sockLe2 room hmemA))
        (now + ROOM_TTL_MS)
      rw [← hcode]
      exact this) with ⟨_, _, htimers2, _, hid2⟩
  constructor
  · -- the old timer id is gone for good
    apply hid2 room.timer
    · intro t ht
      dsimp only at ht
      rcases List.mem_append.mp ht with h1 | h1
      · have := (List.mem_filter.mp h1).2
        simpa using this
      · rw [List.mem_singleton.mp h1]
        dsimp only
        omega
    · dsimp only
      omega
  · -- exactly one fresh timer for `c`, due a full TTL from `now`
    refine ⟨stA.nextTimerId, ?_⟩
    rw [htimers2]
    unfold timersFor
    dsimp only
    rw [List.filter_append]
    have h1 : List.filter (fun t => decide (t.code = c))
        (stA.timers.filter (fun t => t.id ≠ room.timer)) = [] :=
      filter_code_of_only_id stA.timers room.timer c honlyA
    rw [h1]
    simp

end Pinq

namespace Pinq

theorem clientStep_quiet (st : ClientState) (op : ClientOp)
    (hop : op ≠ ClientOp.connect) (hclosed : st.socketOpen = false) :
    (clientStep st op).2 = [] ∧ (clientStep st op).1.socketOpen = false := by
  cases op <;> simp_all [clientStep]

/-- With the socket closed and no further `connect()`, nothing is ever
dispatched. -/
theorem quiet_after_close : ∀ (ops : List ClientOp) (st : ClientState),
    st.socketOpen = false → ClientOp.connect ∉ ops →
    allDispatches st ops = [] ∧ (runClient st ops).socketOpen = false := by
  intro ops
  induction ops with
  | nil => intro st h _; exact ⟨rfl, h⟩
  | cons op rest ih =>
    intro st hclosed hnotin
    have hop : op ≠ ClientOp.connect := fun h => hnotin (h ▸ List.mem_cons_self op rest)
    have hrest : ClientOp.connect ∉ rest := fun h => hnotin (List.mem_cons_of_mem _ h)
    rcases clientStep_quiet st op hop hclosed with ⟨h2, h1⟩
    rcases ih (clientStep st op).1 h1 hrest with ⟨ha, hb⟩
    constructor
    · show (clientStep st op).2 ++ allDispatches (clientStep st op).1 rest = []
      rw [h2, ha]
      rfl
    · show (runClient (clientStep st op).1 rest).socketOpen = false
      exact hb

theorem clientStep_signal_not_mem (st : ClientState) (op : ClientOp) (h : Nat)
    (hmem : h ∉ st.signalHandlers) (hop : op ≠ ClientOp.onSignal h) :
    h ∉ (clientStep st op).1.signalHandlers := by
  cases op with
  | onSignal h2 =>
    have hne : h2 ≠ h := fun he => hop (by rw [he])
    simp only [clientStep, setAdd]
    by_cases hmem2 : h2 ∈ st.signalHandlers
    · simpa [hmem2] using hmem
    · rw [if_neg hmem2]
      intro hcon
      rcases List.mem_append.mp hcon with hcon | hcon
      · exact hmem hcon
      · exact hne (List.mem_singleton.mp hcon).symm
  | offSignal h2 =>
    simp only [clientStep]
    intro hcon
    exact hmem (List.mem_filter.mp hcon).1
  | connect => exact hmem
  | onPeerJoined h2 => exact hmem
  | offPeerJoined h2 => exact hmem
  | inboundSignal => exact hmem
  | inboundPeerJoined => exact hmem
  | disconnect => simp [clientStep]

/-- A signal handler that is not registered and never re-registered is
never dispatched to. -/
theorem signal_handler_gone : ∀ (ops : List ClientOp) (st : ClientState) (h : Nat),
    h ∉ st.signalHandlers → ClientOp.onSignal h ∉ ops →
    h ∉ signalDispatches st ops := by
  intro ops
  induction ops with
  | nil => intro st h _ _; simp [signalDispatches]
  | cons op rest ih =>
    intro st h hmem hnotin
    have hop : op ≠ ClientOp.onSignal h := fun he => hnotin (he ▸ List.mem_cons_self op rest)
    have hrest : ClientOp.onSignal h ∉ rest := fun he => hnotin (List.mem_cons_of_mem _ he)
    show h ∉ (if op = ClientOp.inboundSignal then (clientStep st op).2 else []) ++
      signalDispatches (clientStep st op).1 rest
    intro hcon
    rcases List.mem_append.mp hcon with h1 | h1
    · by_cases hsig : op = ClientOp.inboundSignal
      · rw [if_pos hsig] at h1
        subst hsig
        simp only [clientStep] at h1
        by_cases hopen : st.socketOpen
        · rw [if_pos hopen] at h1
          exact hmem h1
        · simp [hopen] at h1
      · simp [hsig] at h1
    · exact ih (clientStep st op).1 h
        (clientStep_signal_not_mem st op h hmem hop) hrest h1

end Pinq

namespace Pinq

theorem findTimer_of_mem_nodup (timers : List TimerRec) (t : TimerRec)
    (hnd : (timers.map (fun u => u.id)).Nodup) (ht : t ∈ timers) :
    findTimer timers t.id = some t := by
  induction timers with
  | nil => simp at ht
  | cons u us ih =>
    simp only [List.map_cons, List.nodup_cons, List.mem_map] at hnd
    rcases List.mem_cons.mp ht with h | h
    · subst h
      simp [findTimer]
    · have hu : u.id ≠ t.id := fun hc => hnd.1 ⟨t, h, hc.symm⟩
      simp only [findTimer, if_neg hu]
      exact ih hnd.2 h

theorem lookupRoomL_none_of_all (rooms : List RoomState) (c : String)
    (h : ∀ r ∈ rooms, r.code ≠ c) : lookupRoomL rooms c = none := by
  induction rooms with
  | nil => rfl
  | cons x xs ih =>
    rw [lookupRoomL, if_neg (h x (List.mem_cons_self x xs))]
    exact ih (fun r hr => h r (List.mem_cons_of_mem _ hr))

/-- Firing a timeout that does not concern code `c` leaves `c`'s room
entry unchanged. -/
theorem fireTimer_other_preserves (tid : Nat) (st : BrokerState)
    (inv : BrokerInv st) (c : String)
    (h : ∀ t, findTimer st.timers tid = some t → t.code ≠ c) :
    lookupRoom (fireTimer tid st).1 c = lookupRoom st c := by
  cases hfind : findTimer st.timers tid with
  | none => rw [fireTimer_none tid st hfind]
  | some t =>
    rcases findTimer_mem st.timers tid t hfind with ⟨hmem, hid⟩
    rcases inv.owner t hmem with ⟨r, hr, hrc, hrt⟩
    have hlookup : lookupRoomL st.rooms t.code = some r := by
      have := lookupRoomL_of_mem_nodup st.rooms r inv.roomCodes hr
      rwa [hrc] at this
    rw [fireTimer_some_spec tid st t r hfind (inv.bcast t hmem) hlookup]
    exact lookupRoomL_filter_code_ne st.rooms c t.code (Ne.symm (h t hfind))

end Pinq

namespace Pinq

/-- **C4**: For every valid metadata frame `f` (type `text` or `file` with
optional filename, size, mimeType), decoding the encoded frame yields `f`:
the receiver's `JSON.parse` of the sender's `JSON.stringify` of `f`
reconstructs a frame equal to `f`. -/
theorem metadata_roundtrip (m : Metadata) :
    decodeMetadata (encodeMetadata m) = some m := by
  rcases m with ⟨k, f, s, mt⟩
  cases k <;> cases f <;> cases s <;> cases mt <;> rfl

/-- **C5**: `chunkText` / `chunkFile` split every payload into consecutive
chunks of at most 16 KiB (16384 bytes), producing exactly
`⌈payloadSize / 16384⌉` chunks whose in-order concatenation equals the
original payload (for text, the payload is its UTF-8 byte encoding). -/
theorem chunking_spec (text : String) (fileBytes : List Nat) :
    CHUNK_SIZE = 16384 ∧
    (∀ c ∈ chunkText text, c.length ≤ 16384) ∧
    (chunkText text).length = ((utf8Encode text).length + 16384 - 1) / 16384 ∧
    (chunkText text).flatten = utf8Encode text ∧
    (∀ c ∈ chunkFile fileBytes, c.length ≤ 16384) ∧
    (chunkFile fileBytes).length = (fileBytes.length + 16384 - 1) / 16384 ∧
    (chunkFile fileBytes).flatten = fileBytes := by
  have hcs : CHUNK_SIZE = 16384 := by norm_num [CHUNK_SIZE]
  have hne : CHUNK_SIZE ≠ 0 := by norm_num [CHUNK_SIZE]
  refine ⟨hcs, ?_, ?_, ?_, ?_, ?_, ?_⟩
  · intro c hc
    exact hcs ▸ chunkBytes_length_le (utf8Encode text) CHUNK_SIZE c hc
  · rw [← hcs]
    exact chunkBytes_count (utf8Encode text) CHUNK_SIZE hne
  · exact chunkBytes_flatten (utf8Encode text) CHUNK_SIZE hne
  · intro c hc
    exact hcs ▸ chunkBytes_length_le fileBytes CHUNK_SIZE c hc
  · rw [← hcs]
    exact chunkBytes_count fileBytes CHUNK_SIZE hne
  · exact chunkBytes_flatten fileBytes CHUNK_SIZE hne

/-- **C5** (witness): the chunking properties instantiated on the text
`"hi"` and a three-byte file. -/
theorem chunking_spec_witness :
    [104, 105] ∈ chunkText "hi" → ([104, 105] : List Nat).length ≤ 16384 :=
  fun hmem => (chunking_spec "hi" [1, 2, 3]).2.1 [104, 105] hmem

/-- **C7** (counterexample): as stated, the claim fails — the CLI
receiver's `sendAck` emits the legacy spelling `"ACK"` in addition to the
canonical marker, so the emitting side does not send only the canonical
spelling. -/
theorem ack_emitter_sends_legacy :
    "ACK" ∈ sendAck true ∧ "ACK" ≠ ACK_MARKER := by
  constructor
  · simp [sendAck]
  · decide

/-- **C7** (amended): receivers recognize both the canonical and legacy
spellings of both control markers; the end-of-payload emitter sends only
the canonical spelling (the one control frame of a transfer), while the
acknowledgement emitter sends the canonical spelling followed by the
legacy one for backward compatibility. -/
theorem marker_spellings (text : String) (f : FileData) :
    (isEofChunk (WireData.str EOF_MARKER) = true ∧
     isEofChunk (WireData.str "EOF") = true ∧
     isEofChunk (WireData.bytes EOF_BYTES) = true ∧
     isEofChunk (WireData.bytes LEGACY_EOF_BYTES) = true) ∧
    (waitForAckAccepts ACK_MARKER = true ∧ waitForAckAccepts "ACK" = true) ∧
    ((sendTextFrames text).getLast? = some (Frame.ctrl EOF_MARKER) ∧
     (sendFileFrames f).getLast? = some (Frame.ctrl EOF_MARKER) ∧
     (∀ s, Frame.ctrl s ∈ sendTextFrames text → s = EOF_MARKER) ∧
     (∀ s, Frame.ctrl s ∈ sendFileFrames f → s = EOF_MARKER)) ∧
    (sendAck true = [ACK_MARKER, "ACK"] ∧ ACK_MARKER ≠ "ACK" ∧ EOF_MARKER ≠ "EOF") := by
  refine ⟨by constructor <;> [decide; constructor <;> [decide; constructor <;> decide]],
    ⟨by decide, by decide⟩, ⟨?_, ?_, ?_, ?_⟩, by simp [sendAck], by decide, by decide⟩
  · unfold sendTextFrames
    exact List.getLast?_concat _
  · unfold sendFileFrames
    exact List.getLast?_concat _
  · intro s hs
    unfold sendTextFrames at hs
    rcases List.mem_cons.mp hs with h | h
    · exact absurd h (by simp)
    · rcases List.mem_append.mp h with h1 | h1
      · rcases List.mem_map.mp h1 with ⟨bs, _, hbs⟩
        exact absurd hbs (by simp)
      · injection List.mem_singleton.mp h1
  · intro s hs
    unfold sendFileFrames at hs
    rcases List.mem_cons.mp hs with h | h
    · exact absurd h (by simp)
    · rcases List.mem_append.mp h with h1 | h1
      · rcases List.mem_map.mp h1 with ⟨bs, _, hbs⟩
        exact absurd hbs (by simp)
      · injection List.mem_singleton.mp h1

end Pinq

namespace Pinq

/-- **C7** (witness): the amended marker statement at the text `"hi"` and a
one-byte file, with the only-canonical-control-frame hypothesis discharged
on a concrete frame. -/
theorem marker_spellings_witness :
    EOF_MARKER = EOF_MARKER ∧ sendAck true = [ACK_MARKER, "ACK"] :=
  ⟨(marker_spellings "hi" ⟨"f.bin", [0], "application/octet-stream"⟩).2.2.1.2.2.1
      EOF_MARKER (by simp [sendTextFrames]),
   (marker_spellings "hi" ⟨"f.bin", [0], "application/octet-stream"⟩).2.2.2.1⟩


theorem dropWhile_replicate_neg {α : Type} (p : α → Bool) (a : α) (h : p a = false)
    (n : Nat) : (List.replicate n a).dropWhile p = List.replicate n a := by
  cases n with
  | zero => rfl
  | succ m =>
    rw [List.replicate_succ, List.dropWhile_cons]
    simp [h]

/-- **C6** (code bug): the 50 MiB cap is enforced locally for files
(`App.svelte` rejects before `ensureSender()`), but `sendText` performs no
size check at all: a text payload of 50 MiB + 1 bytes proceeds to connect
and transfer, contradicting the documented sender-side 50 MiB limit on
every payload. -/
theorem oversize_payload_guard :
    appSendFile
        (some ⟨"big.bin", List.replicate (MAX_FILE_SIZE + 1) 0,
          "application/octet-stream"⟩) =
      AppSendResult.localError "Max file size is 50 MB." ∧
    (utf8Encode bigText).length = MAX_FILE_SIZE + 1 ∧
    appSendText bigText = AppSendResult.transfer (sendTextFrames bigText) := by
  have htl : bigText.toList = List.replicate (MAX_FILE_SIZE + 1) 'a' := rfl
  have henc : utf8EncodeChar 'a' = [97] := rfl
  refine ⟨?_, ?_, ?_⟩
  · unfold appSendFile
    dsimp only
    rw [if_pos]
    simp [FileData.size]
  · unfold utf8Encode
    rw [htl, List.map_replicate, henc, List.length_flatten, List.map_replicate]
    simp
  · unfold appSendText
    rw [if_neg]
    intro hcon
    have hdata : (jsTrim bigText).toList = List.replicate (MAX_FILE_SIZE + 1) 'a' := by
      unfold jsTrim jsTrimChars
      rw [htl]
      rw [dropWhile_replicate_neg isJsWhitespace 'a' (by decide) _,
        List.reverse_replicate, dropWhile_replicate_neg isJsWhitespace 'a' (by decide) _,
        List.reverse_replicate]
      rfl
    rw [hcon] at hdata
    have hzero : (MAX_FILE_SIZE + 1) = 0 := by
      have hlen := congrArg List.length hdata
      simpa using hlen.symm
    simp [MAX_FILE_SIZE] at hzero

end Pinq

namespace Pinq

/-- **C9** (counterexample): as stated, the claim fails — a `peer-joined`
handler subscribed before `disconnect()` is dispatched again after a later
`connect()`, because `disconnect` clears only the signal handlers and
leaves `peerJoinedHandlers` registered. -/
theorem dispatch_after_disconnect :
    allDispatches
        (clientStep (runClient clientInit [ClientOp.onPeerJoined 0, ClientOp.connect])
          ClientOp.disconnect).1
        [ClientOp.connect, ClientOp.inboundPeerJoined] = [0] ∧
    ([0] : List Nat) ≠ [] := by
  constructor
  · rfl
  · decide

/-- **C9** (amended): after `SignalingClient.disconnect()` returns, no
handler is dispatched as long as `connect()` is not called again; signal
handlers are cleared by `disconnect` and so are never dispatched again
unless re-subscribed; peer-joined handlers however survive the
`disconnect` and can be dispatched again after a reconnect. -/
theorem disconnect_stops_dispatch (st : ClientState) (ops : List ClientOp) :
    (ClientOp.connect ∉ ops →
      allDispatches (clientStep st ClientOp.disconnect).1 ops = []) ∧
    (∀ h, ClientOp.onSignal h ∉ ops →
      h ∉ signalDispatches (clientStep st ClientOp.disconnect).1 ops) ∧
    (clientStep st ClientOp.disconnect).1.peerJoinedHandlers = st.peerJoinedHandlers := by
  refine ⟨fun hno => (quiet_after_close ops _ rfl hno).1,
    fun h hno => signal_handler_gone ops _ h (by simp [clientStep]) hno, rfl⟩

/-- **C9** (witness): the amended statement instantiated after a
subscription and a connect, with one inbound event after the
disconnect. -/
theorem disconnect_stops_dispatch_witness :
    ClientOp.connect ∉ [ClientOp.inboundPeerJoined, ClientOp.inboundSignal] ∧
    allDispatches
        (clientStep (runClient clientInit [ClientOp.onPeerJoined 0, ClientOp.connect])
          ClientOp.disconnect).1
        [ClientOp.inboundPeerJoined, ClientOp.inboundSignal] = [] :=
  ⟨by decide,
   (disconnect_stops_dispatch
      (runClient clientInit [ClientOp.onPeerJoined 0, ClientOp.connect])
      [ClientOp.inboundPeerJoined, ClientOp.inboundSignal]).1 (by decide)⟩

end Pinq

namespace Pinq

/-- **C1**: a join-room request whose (normalized) code has no existing
room and whose role is not `creator` changes nothing — the broker state is
unchanged, no room exists for the code afterwards — and, whenever the code
is non-empty, the requester receives exactly `room-not-found`.  Only a
`creator` join takes the room-creating branch of `handleJoin`. -/
theorem guest_join_room_not_found (sid : SocketId) (p : JoinRoomPayload) (now : Nat)
    (st : BrokerState)
    (h : lookupRoom st (normalizeCode p.code) = none)
    (hrole : p.role ≠ some "creator") :
    (handleJoin sid p now st).1 = st ∧
    lookupRoom (handleJoin sid p now st).1 (normalizeCode p.code) = none ∧
    (normalizeCode p.code ≠ "" →
      handleJoin sid p now st = (st, [Emit.roomNotFound sid (normalizeCode p.code)])) := by
  by_cases hc : normalizeCode p.code = ""
  · have h1 : handleJoin sid p now st = (st, [Emit.errorMsg sid "Invalid room code"]) := by
      unfold handleJoin
      rw [if_pos hc]
    rw [h1]
    exact ⟨rfl, h, fun hne => absurd hc hne⟩
  · rw [handleJoin_guest_none_spec sid p now st hc h hrole]
    exact ⟨rfl, h, fun _ => rfl⟩

/-- **C1** (witness): a guest join of an unknown code against the startup
state leaves the broker state untouched. -/
theorem guest_join_room_not_found_witness :
    lookupRoom brokerInit (normalizeCode "ZZ9") = none ∧
    (JoinRoomPayload.mk "ZZ9" (some "guest")).role ≠ some "creator" ∧
    (handleJoin 7 (JoinRoomPayload.mk "ZZ9" (some "guest")) 0 brokerInit).1 = brokerInit :=
  ⟨rfl, by decide,
    (guest_join_room_not_found 7 (JoinRoomPayload.mk "ZZ9" (some "guest")) 0 brokerInit
      rfl (by decide)).1⟩

/-- **C2**: in every reachable broker state every room has at most 2
members, and a join against a room that already has 2 members returns
`room-full` with the broker state exactly as before (that room's
membership and timer, and all other rooms, unchanged). -/
theorem room_capacity_two (st : BrokerState) (h : Reachable st) :
    (∀ r ∈ st.rooms, r.sockets.length ≤ 2) ∧
    (∀ (sid : SocketId) (p : JoinRoomPayload) (now : Nat) (room : RoomState),
      normalizeCode p.code ≠ "" →
      lookupRoom st (normalizeCode p.code) = some room →
      2 ≤ room.sockets.length →
      handleJoin sid p now st = (st, [Emit.roomFull sid (normalizeCode p.code)])) := by
  have inv := reachable_inv st h
  exact ⟨inv.sockLe2, fun sid p now room hc hl hlen =>
    handleJoin_full_spec sid p now st room hc hl hlen⟩

/-- **C2** (witness): after a creator and a guest join room `AB`, a third
join is rejected with `room-full` and changes nothing. -/
theorem room_capacity_two_witness :
    normalizeCode "AB" ≠ "" ∧
    handleJoin 3 (JoinRoomPayload.mk "AB" (some "guest")) 5
        (handleJoin 2 (JoinRoomPayload.mk "AB" (some "guest")) 0
          (handleJoin 1 (JoinRoomPayload.mk "AB" (some "creator")) 0 brokerInit).1).1 =
      ((handleJoin 2 (JoinRoomPayload.mk "AB" (some "guest")) 0
          (handleJoin 1 (JoinRoomPayload.mk "AB" (some "creator")) 0 brokerInit).1).1,
       [Emit.roomFull 3 (normalizeCode "AB")]) :=
  ⟨by decide,
    (room_capacity_two _
        (Reachable.join 2 (JoinRoomPayload.mk "AB" (some "guest")) 0
          (Reachable.join 1 (JoinRoomPayload.mk "AB" (some "creator")) 0 Reachable.init))).2
      3 (JoinRoomPayload.mk "AB" (some "guest")) 5 (RoomState.mk "AB" [1, 2] 2)
      (by decide) rfl (by decide)⟩

end Pinq

namespace Pinq

/-- **C8**: relaying a `signal` never mutates room membership — the
(code, sockets) projection of the room map is unchanged by `handleSignal`
on every input — and on an existing room the payload is forwarded
unchanged to exactly the other members; if no room exists for the code the
requester receives `room-not-found` and the state is exactly as before. -/
theorem signal_relay_idempotent (sid : SocketId) (p : SignalPayload) (now : Nat)
    (st : BrokerState) :
    (handleSignal sid p now st).1.rooms.map (fun r => (r.code, r.sockets)) =
      st.rooms.map (fun r => (r.code, r.sockets)) ∧
    (∀ room, normalizeCode p.code ≠ "" →
      lookupRoom st (normalizeCode p.code) = some room →
      (handleSignal sid p now st).2 =
        (room.sockets.filter (fun m => m ≠ sid)).map
          (fun m => Emit.signalRelay m p.signal sid)) ∧
    (lookupRoom st (normalizeCode p.code) = none →
      handleSignal sid p now st = (st, [Emit.roomNotFound sid (normalizeCode p.code)])) := by
  refine ⟨?_, ?_, ?_⟩
  · by_cases hc : normalizeCode p.code = ""
    · have h1 : handleSignal sid p now st =
          (st, [Emit.roomNotFound sid (normalizeCode p.code)]) := by
        unfold handleSignal
        rw [if_pos hc]
      rw [h1]
    · cases hl : lookupRoom st (normalizeCode p.code) with
      | none => rw [handleSignal_none_spec sid p now st hl]
      | some room =>
        rw [handleSignal_exists_spec sid p now st room hc hl]
        exact setRoomL_map_code_sockets st.rooms (normalizeCode p.code) room hl st.nextTimerId
  · intro room hc hl
    rw [handleSignal_exists_spec sid p now st room hc hl]
  · intro hl
    exact handleSignal_none_spec sid p now st hl

/-- **C8** (witness): a signal on room `AB` with both members present is
relayed to the other member and leaves every room's membership as it
was. -/
theorem signal_relay_idempotent_witness :
    normalizeCode "AB" ≠ "" ∧
    (handleSignal 1 (SignalPayload.mk "AB" "offer-sdp") 9
        (handleJoin 2 (JoinRoomPayload.mk "AB" (some "guest")) 0
          (handleJoin 1 (JoinRoomPayload.mk "AB" (some "creator")) 0 brokerInit).1).1).2 =
      [Emit.signalRelay 2 "offer-sdp" 1] :=
  ⟨by decide,
    (signal_relay_idempotent 1 (SignalPayload.mk "AB" "offer-sdp") 9
        (handleJoin 2 (JoinRoomPayload.mk "AB" (some "guest")) 0
          (handleJoin 1 (JoinRoomPayload.mk "AB" (some "creator")) 0 brokerInit).1).1).2.1
      (RoomState.mk "AB" [1, 2] 2) (by decide) rfl⟩

/-- **C10**: pairing codes are normalized by JS `trim().toUpperCase()` on
every broker join-room and signal request, and the CLI client normalizes
the code the same way before emitting its join — so two codes with the
same normalization (e.g. differing only in case or surrounding
whitespace) address the same room in every broker state. -/
theorem code_normalization (s1 s2 : String) (h : normalizeCode s1 = normalizeCode s2) :
    (∀ (sid : SocketId) (role : Option String) (now : Nat) (st : BrokerState),
      handleJoin sid (JoinRoomPayload.mk s1 role) now st =
        handleJoin sid (JoinRoomPayload.mk s2 role) now st) ∧
    (∀ (sid : SocketId) (sig : String) (now : Nat) (st : BrokerState),
      handleSignal sid (SignalPayload.mk s1 sig) now st =
        handleSignal sid (SignalPayload.mk s2 sig) now st) ∧
    (cliJoinEmitPayload s1).code = normalizeCode s1 := by
  refine ⟨?_, ?_, rfl⟩
  · intro sid role now st
    unfold handleJoin
    dsimp only
    rw [h]
  · intro sid sig now st
    unfold handleSignal
    dsimp only
    rw [h]

/-- **C10** (witness): `" abC123 "` and `"ABC123"` normalize alike, so a
creator join with either spelling produces the same broker state and
emissions. -/
theorem code_normalization_witness :
    normalizeCode " abC123 " = normalizeCode "ABC123" ∧
    handleJoin 1 (JoinRoomPayload.mk " abC123 " (some "creator")) 0 brokerInit =
      handleJoin 1 (JoinRoomPayload.mk "ABC123" (some "creator")) 0 brokerInit :=
  ⟨rfl,
    (code_normalization " abC123 " "ABC123" rfl).1 1 (some "creator") 0 brokerInit⟩

end Pinq

namespace Pinq

theorem filter_eq_singleton_of_unique {α : Type} (l : List α) (p : α → Bool) (t : α)
    (hnd : l.Nodup) (ht : t ∈ l) (hpt : p t = true)
    (huniq : ∀ u ∈ l, p u = true → u = t) : l.filter p = [t] := by
  induction l with
  | nil => simp at ht
  | cons x xs ih =>
    rcases List.nodup_cons.mp hnd with ⟨hx, hxs⟩
    rcases List.mem_cons.mp ht with h1 | h1
    · subst h1
      rw [List.filter_cons, if_pos hpt]
      have hnil : xs.filter p = [] := by
        apply List.filter_eq_nil_iff.mpr
        intro u hu hpu
        exact hx (huniq u (List.mem_cons_of_mem _ hu) hpu ▸ hu)
      rw [hnil]
    · have hpx : p x = false := by
        cases hv : p x with
        | false => rfl
        | true => exact absurd (huniq x (List.mem_cons_self x xs) hv ▸ h1) hx
      rw [List.filter_cons, if_neg (by simp [hpx])]
      exact ih hxs h1 (fun u hu hpu => huniq u (List.mem_cons_of_mem _ hu) hpu)

/-- The timer list produced by a TTL renewal: the retired id is gone and
the code's armed timeouts are exactly the single fresh one. -/
theorem renewal_shape (st : BrokerState) (inv : BrokerInv st) (c : String)
    (room : RoomState) (hmem : room ∈ st.rooms) (hcode : room.code = c)
    (now : Nat) :
    (∀ t ∈ st.timers.filter (fun t => t.id ≠ room.timer) ++
        [TimerRec.mk st.nextTimerId c (now + ROOM_TTL_MS) true], t.id ≠ room.timer) ∧
    (st.timers.filter (fun t => t.id ≠ room.timer) ++
        [TimerRec.mk st.nextTimerId c (now + ROOM_TTL_MS) true]).filter
      (fun t => t.code = c) = [TimerRec.mk st.nextTimerId c (now + ROOM_TTL_MS) true] := by
  have hfresh : room.timer < st.nextTimerId := by
    rcases room_timer_rec st inv room hmem with ⟨t, ht, _, hid⟩
    have := inv.fresh t ht
    omega
  have honly : ∀ t ∈ st.timers, t.code = c → t.id = room.timer := fun t ht htc =>
    timersFor_only_id st inv room hmem t ht (htc.trans hcode.symm)
  constructor
  · intro t ht
    rcases List.mem_append.mp ht with h1 | h1
    · have := (List.mem_filter.mp h1).2
      simpa using this
    · rw [List.mem_singleton.mp h1]
      dsimp only
      omega
  · rw [List.filter_append, filter_code_of_only_id st.timers room.timer c honly]
    simp

end Pinq

namespace Pinq

/-- **C3**: in every reachable broker state, a room has exactly one armed
expiry timeout (a `room-expired` broadcast); a signal, a (non-full) join,
or a member disconnect with a survivor cancels it and arms exactly one
fresh timeout due a full 5-minute TTL after the event; if instead the
timeout fires, each current member receives `room-expired` exactly once
and the room and its timers are deleted; and after a renewal the original
timeout never fires — the room survives its original deadline. -/
theorem ttl_renewal_and_expiry (st : BrokerState) (h : Reachable st) (c : String)
    (hc : c ≠ "") (room : RoomState) (hr : lookupRoom st c = some room) :
    (∃ d, timersFor st c = [⟨room.timer, c, d, true⟩]) ∧
    (∀ (sid : SocketId) (p : SignalPayload) (now : Nat), normalizeCode p.code = c →
      (∀ t ∈ (handleSignal sid p now st).1.timers, t.id ≠ room.timer) ∧
      timersFor (handleSignal sid p now st).1 c =
        [⟨st.nextTimerId, c, now + ROOM_TTL_MS, true⟩]) ∧
    (∀ (sid : SocketId) (p : JoinRoomPayload) (now : Nat), normalizeCode p.code = c →
      room.sockets.length < 2 →
      (∀ t ∈ (handleJoin sid p now st).1.timers, t.id ≠ room.timer) ∧
      timersFor (handleJoin sid p now st).1 c =
        [⟨st.nextTimerId, c, now + ROOM_TTL_MS, true⟩]) ∧
    (∀ (sid : SocketId) (now : Nat), sid ∈ room.sockets →
      (room.sockets.filter (fun m => m ≠ sid)).length ≠ 0 →
      (∀ t ∈ (handleDisconnect sid now st).1.timers, t.id ≠ room.timer) ∧
      (∃ n, timersFor (handleDisconnect sid now st).1 c =
        [⟨n, c, now + ROOM_TTL_MS, true⟩])) ∧
    ((fireTimer room.timer st).2 = room.sockets.map (fun m => Emit.roomExpired m c) ∧
      lookupRoom (fireTimer room.timer st).1 c = none ∧
      timersFor (fireTimer room.timer st).1 c = []) ∧
    (∀ (sid : SocketId) (p : SignalPayload) (now : Nat), normalizeCode p.code = c →
      fireTimer room.timer (handleSignal sid p now st).1 =
        ((handleSignal sid p now st).1, []) ∧
      lookupRoom (fireTimer room.timer (handleSignal sid p now st).1).1 c ≠ none) := by
  have inv := reachable_inv st h
  have hcode : room.code = c := (lookupRoomL_code st.rooms c room hr).1
  have hmem : room ∈ st.rooms := (lookupRoomL_code st.rooms c room hr).2
  have honly : ∀ t ∈ st.timers, t.code = c → t.id = room.timer := fun t ht htc =>
    timersFor_only_id st inv room hmem t ht (htc.trans hcode.symm)
  rcases room_timer_rec st inv room hmem with ⟨t, ht, htc, hti⟩
  have htcc : t.code = c := htc.trans hcode
  refine ⟨?_, ?_, ?_, ?_, ?_, ?_⟩
  · -- exactly one armed timeout for the code
    refine ⟨t.deadline, ?_⟩
    have hsing : st.timers.filter (fun u => u.code = c) = [t] :=
      filter_eq_singleton_of_unique st.timers _ t
        (List.Nodup.of_map _ inv.timerIds) ht (by simp [htcc])
        (fun u hu hpu => timer_eq_of_id st inv u t hu ht
          ((honly u hu (of_decide_eq_true hpu)).trans hti.symm))
    unfold timersFor
    rw [hsing]
    have hb := inv.bcast t ht
    obtain ⟨tid, tc2, td2, tb2⟩ := t
    dsimp only at htcc hti hb ⊢
    rw [hti, htcc, hb]
  · -- a signal renews the timeout
    intro sid p now hp
    have hc2 : normalizeCode p.code ≠ "" := by rw [hp]; exact hc
    have hr2 : lookupRoom st (normalizeCode p.code) = some room := by rw [hp]; exact hr
    have hspec := handleSignal_exists_spec sid p now st room hc2 hr2
    rw [hp] at hspec
    rw [hspec]
    refine ⟨(renewal_shape st inv c room hmem hcode now).1, ?_⟩
    unfold timersFor
    exact (renewal_shape st inv c room hmem hcode now).2
  · -- a join renews the timeout
    intro sid p now hp hlen
    have hc2 : normalizeCode p.code ≠ "" := by rw [hp]; exact hc
    have hr2 : lookupRoom st (normalizeCode p.code) = some room := by rw [hp]; exact hr
    have hspec := handleJoin_existing_spec sid p now st room hc2 hr2 hlen
    rw [hp] at hspec
    rw [hspec]
    refine ⟨(renewal_shape st inv c room hmem hcode now).1, ?_⟩
    unfold timersFor
    exact (renewal_shape st inv c room hmem hcode now).2
  · -- a member disconnect with a survivor renews the timeout
    intro sid now hsid hsurv
    exact handleDisconnect_renewal sid now st inv c room hr hsid hsurv
  · -- the timeout fires: one room-expired per member, room and timers gone
    have hfind : findTimer st.timers room.timer = some t := by
      have := findTimer_of_mem_nodup st.timers t inv.timerIds ht
      rwa [hti] at this
    have hlook : lookupRoomL st.rooms t.code = some room := by
      rw [htcc]
      exact hr
    have hfire := fireTimer_some_spec room.timer st t room hfind (inv.bcast t ht) hlook
    rw [htcc] at hfire
    refine ⟨by rw [hfire], ?_, ?_⟩
    · rw [hfire]
      apply lookupRoomL_none_of_all
      intro r hrm
      have := (List.mem_filter.mp hrm).2
      simpa using this
    · rw [hfire]
      unfold timersFor
      dsimp only
      have hcollapse : (st.timers.filter (fun u => u.id ≠ room.timer)).filter
          (fun u => u.id ≠ room.timer) =
          st.timers.filter (fun u => u.id ≠ room.timer) := by
        rw [List.filter_filter]
        simp
      rw [hcollapse]
      exact filter_code_of_only_id st.timers room.timer c honly
  · -- after a renewal the original timeout never fires
    intro sid p now hp
    have hc2 : normalizeCode p.code ≠ "" := by rw [hp]; exact hc
    have hr2 : lookupRoom st (normalizeCode p.code) = some room := by rw [hp]; exact hr
    have hspec := handleSignal_exists_spec sid p now st room hc2 hr2
    rw [hp] at hspec
    have hno : ∀ u ∈ (handleSignal sid p now st).1.timers, u.id ≠ room.timer := by
      rw [hspec]
      exact (renewal_shape st inv c room hmem hcode now).1
    have hfind : findTimer (handleSignal sid p now st).1.timers room.timer = none :=
      findTimer_eq_none _ _ hno
    refine ⟨fireTimer_none room.timer _ hfind, ?_⟩
    rw [fireTimer_none room.timer _ hfind]
    rw [hspec]
    have hXc : (RoomState.code { room with timer := st.nextTimerId }) = c := hcode
    have hself := lookupRoomL_setRoomL_self st.rooms { room with timer := st.nextTimerId }
    rw [hXc] at hself
    unfold lookupRoom
    dsimp only
    rw [hcode, hself]
    simp

/-- **C3** (witness): after a creator joins room `AB` at time 100, firing
the room's armed timeout broadcasts exactly one `room-expired` to the one
member. -/
theorem ttl_renewal_and_expiry_witness :
    ("AB" : String) ≠ "" ∧
    lookupRoom (handleJoin 1 (JoinRoomPayload.mk "AB" (some "creator")) 100 brokerInit).1
        "AB" = some (RoomState.mk "AB" [1] 1) ∧
    (fireTimer 1
        (handleJoin 1 (JoinRoomPayload.mk "AB" (some "creator")) 100 brokerInit).1).2 =
      [Emit.roomExpired 1 "AB"] :=
  ⟨by decide, rfl,
    (ttl_renewal_and_expiry _
        (Reachable.join 1 (JoinRoomPayload.mk "AB" (some "creator")) 100 Reachable.init)
        "AB" (by decide) (RoomState.mk "AB" [1] 1) rfl).2.2.2.2.1.1⟩

end Pinq
